import Mathlib

/-!
Verification of the Basil smart-import engine (Open-Grove-Labs/basil).

This file gives a shallow embedding, in Lean 4, of the CSV smart-import
code of the repository:

* src/src/utils/smart-import/data-parsers.ts   (namespace DataParsers)
* src/src/utils/smart-import/csv-parser.ts     (namespace CsvParser)
* the column-detection module column-detection.ts (namespace ColumnDetection)
* the legacy single-file engine smartImport.ts  (namespace SmartImport),
  which holds checkForDuplicates, processImportedTransactions and
  groupTransactionsByDescription.

Strings are modelled as lists of characters (JS strings are sequences of
code units; all characters relevant here are plain code points).  JS
numbers are modelled as rationals: decimal literals, additions and
comparisons are exact in this model; IEEE-754 rounding, NaN and Infinity
are outside it (places where JS could produce NaN or Infinity are noted
at the definitions).  Environment-dependent operations (the Date
constructor, crypto.randomUUID, localStorage, number-to-string
formatting) are taken as explicit function parameters.
-/

namespace Basil

/-- JsStr models a JavaScript string as the list of its characters. -/
abbrev JsStr := List Char

/-- Conversion from a Lean string literal to the JsStr model. -/
def strL (s : String) : JsStr := s.data

/-- Character class of the regexes' digit class: exactly the ASCII digits 0-9. -/
def jsIsDigit (c : Char) : Bool := 48 ≤ c.toNat ∧ c.toNat ≤ 57

/-- Whitespace as JavaScript sees it: the WhiteSpace and LineTerminator
sets used by String.prototype.trim, the regex class of whitespace, and
parseFloat's leading-space skipping. -/
def isJsSpace (c : Char) : Bool :=
  c.toNat = 32 ∨ c.toNat = 9 ∨ c.toNat = 10 ∨ c.toNat = 13 ∨ c.toNat = 11 ∨
  c.toNat = 12 ∨ c.toNat = 160 ∨ c.toNat = 5760 ∨
  (8192 ≤ c.toNat ∧ c.toNat ≤ 8202) ∨ c.toNat = 8232 ∨ c.toNat = 8233 ∨
  c.toNat = 8239 ∨ c.toNat = 8287 ∨ c.toNat = 12288 ∨ c.toNat = 65279

/-- Characters treated as line terminators by the regex dot (which does
not match them). -/
def isLineTerm (c : Char) : Bool :=
  c.toNat = 10 ∨ c.toNat = 13 ∨ c.toNat = 8232 ∨ c.toNat = 8233

/-- Model of String.prototype.trim: drop JS whitespace from both ends. -/
def jsTrim (s : JsStr) : JsStr :=
  ((s.dropWhile isJsSpace).reverse.dropWhile isJsSpace).reverse

/-- Model of String.prototype.toLowerCase restricted to ASCII (the only
case mapping exercised by the repository's data). -/
def jsToLowerChar (c : Char) : Char :=
  if 65 ≤ c.toNat ∧ c.toNat ≤ 90 then Char.ofNat (c.toNat + 32) else c

/-- Lowercasing a whole string, character by character. -/
def jsToLower (s : JsStr) : JsStr := s.map jsToLowerChar

/-- Model of String.prototype.includes: the pattern occurs as a
contiguous substring. -/
def strIncludes (s pat : JsStr) : Bool :=
  match s with
  | [] => pat.isEmpty
  | _ :: cs => pat.isPrefixOf s || strIncludes cs pat

/-- Model of String.prototype.replace with a plain (non-regex) search
string: only the first occurrence is replaced. -/
def replaceFirst (pat repl s : JsStr) : JsStr :=
  match s with
  | [] => []
  | c :: cs => if pat.isPrefixOf (c :: cs) then repl ++ (c :: cs).drop pat.length
               else c :: replaceFirst pat repl cs

/-- Numeric value of a list of ASCII digits, most significant first. -/
def natFromDigits (ds : JsStr) : Nat :=
  ds.foldl (fun a c => a * 10 + (c.toNat - 48)) 0

/-- Model of String.prototype.padStart(2, c): left-pad to length two. -/
def padStart2 (c : Char) (s : JsStr) : JsStr :=
  List.replicate (2 - s.length) c ++ s

/-- Pointwise truth of a predicate over a list, as a recursively defined
proposition (used to state whole-list invariants without binders). -/
def ListAll {α : Type _} (p : α → Prop) : List α → Prop
  | [] => True
  | x :: xs => p x ∧ ListAll p xs

namespace DataParsers

/-!
Embedding of src/src/utils/smart-import/data-parsers.ts.
-/

/-- Currency characters removed by parseAmount's first replace: the
regex class of dollar, euro, pound, yen (twice), rupee, won and
full-width yen signs. -/
def isCurrencyChar (c : Char) : Bool :=
  c = '$' ∨ c = '€' ∨ c = '£' ∨ c = '¥' ∨ c = '₹' ∨ c = '₩' ∨ c = '￥'

/-- Test of the anchored parenthesis regex used by parseAmount.  The
dot of the regex matches every character except line terminators, so the
test asks for an opening parenthesis, a closing parenthesis, and a
terminator-free interior. -/
def parensTest (s : JsStr) : Bool :=
  2 ≤ s.length ∧ s.head? = some '(' ∧ s.getLast? = some ')' ∧
  ((s.drop 1).dropLast.all fun c => ¬ isLineTerm c)

/-- Exponent of a parseFloat literal: after the e or E an optional sign
and at least one digit; with no digit the exponent part is not consumed
and contributes a factor of one. -/
def parseFloatExp (s : JsStr) : Int :=
  match s with
  | c :: rest =>
    if c = 'e' ∨ c = 'E' then
      match rest with
      | d :: rest2 =>
        if d = '-' then
          (if rest2.takeWhile jsIsDigit = [] then 0
           else -(natFromDigits (rest2.takeWhile jsIsDigit) : Int))
        else if d = '+' then
          (if rest2.takeWhile jsIsDigit = [] then 0
           else (natFromDigits (rest2.takeWhile jsIsDigit) : Int))
        else (if rest.takeWhile jsIsDigit = [] then 0
              else (natFromDigits (rest.takeWhile jsIsDigit) : Int))
      | [] => 0
    else 0
  | [] => 0

/-- Decomposition of a parseFloat literal into its textual parts:
optional leading whitespace, optional sign, integer digits, optional
fractional digits (at least one digit overall), optional exponent; the
longest valid numeric head is taken, none standing for NaN.  Returned
are the negativity of the sign, the integer digits, the fractional
digits and the exponent value. -/
def jsParseFloatParts (s : JsStr) : Option (Bool × JsStr × JsStr × Int) :=
  let s1 := s.dropWhile isJsSpace
  let neg := s1.head? = some '-'
  let s2 := if s1.head? = some '-' ∨ s1.head? = some '+' then s1.drop 1 else s1
  let intPart := s2.takeWhile jsIsDigit
  let s3 := s2.drop intPart.length
  let fracPart := if s3.head? = some '.' then (s3.drop 1).takeWhile jsIsDigit else []
  let s4 := if s3.head? = some '.' then (s3.drop 1).drop fracPart.length else s3
  if intPart = [] ∧ fracPart = [] then none
  else some (neg, intPart, fracPart, parseFloatExp s4)

/-- Model of the global parseFloat on the decimal grammar, assembling
the parts of jsParseFloatParts into an exact rational; none is returned
where JS returns NaN.  The Infinity literal and IEEE rounding are
outside this rational model. -/
def jsParseFloat (s : JsStr) : Option ℚ :=
  match jsParseFloatParts s with
  | none => none
  | some (neg, intPart, fracPart, e) =>
    some ((if neg then (-1 : ℚ) else 1) *
          ((natFromDigits (intPart ++ fracPart) : ℚ) / 10 ^ fracPart.length) *
          (10 : ℚ) ^ e)

/-- Cleaning pipeline of parseAmount: trim, strip the parentheses of an
accounting negative, remove currency signs, remove commas and
whitespace.  Factored out of parseAmount so that statements can speak
about the string parseFloat receives. -/
def parseAmountCleaned (amountStr : JsStr) : JsStr :=
  let t := jsTrim amountStr
  let c1 := if parensTest t then (t.drop 1).dropLast else t
  let c2 := c1.filter fun c => ¬ isCurrencyChar c
  c2.filter fun c => ¬ (c = ',' ∨ isJsSpace c)

/-- Embedding of parseAmount of data-parsers.ts (the file smartImport.ts
holds a textually identical copy used by processImportedTransactions). -/
def parseAmount (amountStr : JsStr) : ℚ :=
  let t := jsTrim amountStr
  let isNegativeParens := parensTest t
  match jsParseFloat (parseAmountCleaned amountStr) with
  | none => 0
  | some amount =>
    if isNegativeParens ∨ t.head? = some '-' then -|amount| else amount

/-- Cleaning step of parseDate: trim, then delete every apostrophe
(code 39) and double quote (code 34). -/
def parseDateCleaned (dateStr : JsStr) : JsStr :=
  (jsTrim dateStr).filter fun c => ¬ (c.toNat = 39 ∨ c.toNat = 34)

/-- Matcher of the anchored ISO head regex of parseDate: four digits,
dash, two digits, dash, two digits at the start of the string. -/
def matchISOHead (s : JsStr) : Bool :=
  match s with
  | a :: b :: c :: d :: e :: f :: g :: h :: i :: j :: _ =>
    jsIsDigit a && jsIsDigit b && jsIsDigit c && jsIsDigit d && e = '-' &&
    jsIsDigit f && jsIsDigit g && h = '-' && jsIsDigit i && jsIsDigit j
  | _ => false

/-- Matcher of the anchored slash-date regex: one or two digits, slash,
one or two digits, slash, four digits, with arbitrary text after.  A
longer digit run at either of the first two positions makes the
backtracking regex fail altogether, so the groups are exactly the full
digit runs. -/
def matchSlashDate (s : JsStr) : Option (JsStr × JsStr × JsStr) :=
  let d1 := s.takeWhile jsIsDigit
  if 1 ≤ d1.length ∧ d1.length ≤ 2 then
    match s.drop d1.length with
    | '/' :: r2 =>
      let d2 := r2.takeWhile jsIsDigit
      if 1 ≤ d2.length ∧ d2.length ≤ 2 then
        match r2.drop d2.length with
        | '/' :: r3 =>
          if (r3.take 4).length = 4 ∧ (r3.take 4).all jsIsDigit then
            some (d1, d2, r3.take 4)
          else none
        | _ => none
      else none
    | _ => none
  else none

/-- Matcher of the end-anchored two-digit-year slash-date regex: one or
two digits, slash, one or two digits, slash, exactly two digits, end of
string. -/
def matchSlashDateYY (s : JsStr) : Option (JsStr × JsStr × JsStr) :=
  let d1 := s.takeWhile jsIsDigit
  if 1 ≤ d1.length ∧ d1.length ≤ 2 then
    match s.drop d1.length with
    | '/' :: r2 =>
      let d2 := r2.takeWhile jsIsDigit
      if 1 ≤ d2.length ∧ d2.length ≤ 2 then
        match r2.drop d2.length with
        | '/' :: r3 =>
          if r3.length = 2 ∧ r3.all jsIsDigit then some (d1, d2, r3) else none
        | _ => none
      else none
    | _ => none
  else none

/-- First format of parseDate: an ISO-looking head keeps the text before
the first space. -/
def parseDateFormat1 (d : JsStr) : Option JsStr :=
  if matchISOHead d then some (d.takeWhile fun c => ¬ c = ' ') else none

/-- Second format of parseDate: month-day-year with slashes, accepted
when the first group is at most twelve and the second at most
thirty-one, reassembled zero-padded as year-month-day. -/
def parseDateFormat2 (d : JsStr) : Option JsStr :=
  match matchSlashDate d with
  | some (first, second, year) =>
    if natFromDigits first ≤ 12 ∧ natFromDigits second ≤ 31 then
      some (year ++ '-' :: padStart2 '0' first ++ '-' :: padStart2 '0' second)
    else none
  | none => none

/-- Third format of parseDate: month-day with a two-digit year, the
century picked by a fifty cutoff. -/
def parseDateFormat3 (d : JsStr) : Option JsStr :=
  match matchSlashDateYY d with
  | some (month, day, year) =>
    let fullYear := if 50 < natFromDigits year then strL "19" ++ year
                    else strL "20" ++ year
    some (fullYear ++ '-' :: padStart2 '0' month ++ '-' :: padStart2 '0' day)
  | none => none

/-- Fourth format of parseDate: day-month-year, used when the first
group exceeds twelve, or as the ambiguous-case fallback when the first
group fits a day and the second a month. -/
def parseDateFormat4 (d : JsStr) : Option JsStr :=
  match matchSlashDate d with
  | some (first, second, year) =>
    if 12 < natFromDigits first then
      some (year ++ '-' :: padStart2 '0' second ++ '-' :: padStart2 '0' first)
    else if natFromDigits first ≤ 31 ∧ natFromDigits second ≤ 12 then
      some (year ++ '-' :: padStart2 '0' second ++ '-' :: padStart2 '0' first)
    else none
  | none => none

/-- Embedding of parseDate of data-parsers.ts.  The four regex formats
are tried in order on the cleaned string; the final fallback (JS Date
constructor plus toISOString, or the empty string) is environment-defined
and passed in as the dateFallback parameter. -/
def parseDate (dateFallback : JsStr → JsStr) (dateStr : JsStr) : JsStr :=
  let cleaned := parseDateCleaned dateStr
  match parseDateFormat1 cleaned with
  | some r => r
  | none =>
  match parseDateFormat2 cleaned with
  | some r => r
  | none =>
  match parseDateFormat3 cleaned with
  | some r => r
  | none =>
  match parseDateFormat4 cleaned with
  | some r => r
  | none => dateFallback cleaned

end DataParsers

/-- ImportedRow models a parsed CSV row: a JS object whose keys are the
column headers; lookups return the first binding (rows built by the CSV
parsers bind each distinct header once). -/
abbrev ImportedRow := List (JsStr × JsStr)

/-- Property access row[k] on an ImportedRow. -/
def rowLookup (row : ImportedRow) (k : JsStr) : Option JsStr :=
  (row.find? fun p => p.1 = k).map Prod.snd

/-- Reading row[k] with the JS idiom String(row[k] || ""): a missing or
empty value becomes the empty string. -/
def rowStr (row : ImportedRow) (k : JsStr) : JsStr :=
  (rowLookup row k).getD []

/-- Reading row[k] with a bare String(row[k]): a missing value becomes
the literal text undefined. -/
def rowStrU (row : ImportedRow) (k : JsStr) : JsStr :=
  (rowLookup row k).getD (strL "undefined")

/-- Object.keys of an ImportedRow, in insertion order. -/
def rowKeys (row : ImportedRow) : List JsStr := row.map Prod.fst

namespace CsvParser

/-!
Embedding of src/src/utils/smart-import/csv-parser.ts.
-/

/-- Model of String.prototype.split on the newline character. -/
def splitNewline : JsStr → List JsStr
  | [] => [[]]
  | c :: cs =>
    let r := splitNewline cs
    if c = '\n' then [] :: r
    else (c :: r.headD []) :: r.tail

/-- Count of the occurrences of a character in a line, as the global
regex match of detectDelimiter counts them. -/
def countChar (c : Char) (line : JsStr) : Nat :=
  (line.filter fun x => x = c).length

/-- Candidate delimiters of detectDelimiter, semicolon first so that it
wins ties. -/
def delimiterCandidates : List Char := [';', ',', '\t', '|']

/-- Embedding of detectDelimiter of csv-parser.ts: fold over the
candidates keeping the first delimiter of strictly maximal count,
starting from a zero count and a comma. -/
def detectDelimiter (line : JsStr) : Char :=
  (delimiterCandidates.foldl
    (fun st d => if countChar d line > st.1 then (countChar d line, d) else st)
    (0, ',')).2

/-- Delimiter choice as the specification words it: the delimiter with
the highest count, the earlier candidate in the priority order
semicolon, comma, tab, pipe preferred on equal counts, and a comma when
all counts are zero. -/
def specDelimiter (line : JsStr) : Char :=
  let c1 := countChar ';' line
  let c2 := countChar ',' line
  let c3 := countChar '\t' line
  let c4 := countChar '|' line
  if c1 = 0 ∧ c2 = 0 ∧ c3 = 0 ∧ c4 = 0 then ','
  else if c1 ≥ c2 ∧ c1 ≥ c3 ∧ c1 ≥ c4 then ';'
  else if c2 ≥ c3 ∧ c2 ≥ c4 then ','
  else if c3 ≥ c4 then '\t'
  else '|'

/-- Model of the edge-quote regex replace of parseCSVLine: one leading
and one trailing double quote are removed. -/
def stripEdgeQuotes (s : JsStr) : JsStr :=
  let a := if s.head? = some '"' then s.drop 1 else s
  if a.getLast? = some '"' then a.dropLast else a

/-- Loop of parseCSVLine: walks the line tracking the previous character
and the in-quotes flag; an unescaped double quote toggles the flag, the
delimiter outside quotes ends a field, anything else joins the current
field. -/
def parseCSVLineGo (delimiter : Char) : JsStr → Option Char → Bool → JsStr → List JsStr
  | [], _, _, current => [stripEdgeQuotes current]
  | c :: rest, prev, inQuotes, current =>
    if c = '"' ∧ (prev = none ∨ ¬ prev = some '\\') then
      parseCSVLineGo delimiter rest (some c) (!inQuotes) current
    else if c = delimiter ∧ inQuotes = false then
      stripEdgeQuotes current :: parseCSVLineGo delimiter rest (some c) inQuotes []
    else parseCSVLineGo delimiter rest (some c) inQuotes (current ++ [c])

/-- Embedding of parseCSVLine of csv-parser.ts. -/
def parseCSVLine (line : JsStr) (delimiter : Char) : List JsStr :=
  parseCSVLineGo delimiter line none false []

/-- Embedding of parseCSV of csv-parser.ts: split into non-blank lines,
infer the delimiter from the header line only, parse the header, and
keep each later line whose field count matches the header count as a row
keyed by the trimmed headers. -/
def parseCSV (csvText : JsStr) : List ImportedRow :=
  let lines := (splitNewline csvText).filter fun l => ¬ jsTrim l = []
  if lines.length < 2 then []
  else
    let delimiter := detectDelimiter (lines.headD [])
    let headers := parseCSVLine (lines.headD []) delimiter
    (lines.drop 1).filterMap fun line =>
      let values := parseCSVLine line delimiter
      if values.length = headers.length then
        some (List.zipWith (fun h v => (jsTrim h, jsTrim v)) headers values)
      else none

/-- The six canonical Basil export headers, in the order detectBasilCSV
lists them. -/
def basilHeaders : List JsStr :=
  [strL "Date", strL "Description", strL "Category", strL "Type",
   strL "Amount", strL "Created At"]

/-- Embedding of detectBasilCSV of csv-parser.ts: every canonical header
occurs among the given headers. -/
def detectBasilCSV (headers : List JsStr) : Bool :=
  basilHeaders.all fun h => headers.contains h

end CsvParser

/-- Transaction type values of the repository. -/
inductive TxType where
  | income
  | expense
deriving DecidableEq, Repr

/-- Embedding of the Transaction interface of the repository's types
module (amounts as exact rationals). -/
structure Transaction where
  id : JsStr
  amount : ℚ
  description : JsStr
  category : JsStr
  type : TxType
  date : JsStr
  createdAt : JsStr
deriving DecidableEq

namespace SmartImport

/-!
Embedding of the legacy engine smartImport.ts: column mapping, duplicate
detection, row processing and description grouping.
-/

/-- Embedding of the ColumnMapping interface of smartImport.ts.  The
optional TS fields are modelled as strings with the empty string
standing for an absent column; the code only ever tests them for
truthiness, for which the two coincide. -/
structure ColumnMapping where
  dateColumn : JsStr
  descriptionColumn : JsStr
  amountColumn : JsStr
  debitColumn : JsStr := []
  creditColumn : JsStr := []
  categoryColumn : JsStr := []
  typeColumn : JsStr := []
deriving DecidableEq

/-- Embedding of the ParsedTransaction interface of smartImport.ts. -/
structure ParsedTransaction where
  id : JsStr
  date : JsStr
  description : JsStr
  amount : ℚ
  category : JsStr
  type : Option TxType
  isDuplicate : Bool := false
  duplicateReason : JsStr := []
  confidence : ℚ
  originalRow : ImportedRow
deriving DecidableEq

/-- Embedding of the TransactionGroup interface of smartImport.ts. -/
structure TransactionGroup where
  description : JsStr
  transactions : List ParsedTransaction
  suggestedCategory : JsStr
  suggestedType : Option TxType
  includeInImport : Bool
deriving DecidableEq

/-- Levenshtein distance by its textbook recurrence on the leading
characters; the reference definition against which the dynamic-programming
table of the source is verified. -/
def levRec : JsStr → JsStr → Nat
  | [], ys => ys.length
  | x :: xs, [] => (x :: xs).length
  | x :: xs, y :: ys =>
    if x = y then levRec xs ys
    else 1 + min (levRec xs ys) (min (levRec xs (y :: ys)) (levRec (x :: xs) ys))
termination_by xs ys => xs.length + ys.length
decreasing_by all_goals simp_arith

/-- The Levenshtein distance of two strings, presented by the classical
prefix table recurrence: the distance of the prefixes a[0..i], b[0..j]
peels the last characters, which is levRec on the reversed strings. -/
def levenshtein (a b : JsStr) : Nat := levRec a.reverse b.reverse

/-- Inner loop of the levenshteinDistance matrix of smartImport.ts: one
sweep over the characters of str1 computing row i from row i-1.  The
arguments carry the remaining characters of str1, the previous row from
column j-1 on, and the entry just written in the current row. -/
def levLoop (c : Char) : JsStr → List Nat → Nat → List Nat
  | [], _, _ => []
  | x :: xs, prevRow, left =>
    let diag := prevRow.headD 0
    let up := prevRow.tail.headD 0
    let v := if c = x then diag else 1 + min diag (min left up)
    v :: levLoop c xs prevRow.tail v

/-- Outer loop of the levenshteinDistance matrix: one row per character
of str2, each row opened by its row index as in matrix[i] = [i]. -/
def levRows (str1 : JsStr) : JsStr → Nat → List Nat → List Nat
  | [], _, row => row
  | c :: cs, i, row => levRows str1 cs (i + 1) (i :: levLoop c str1 row i)

/-- Embedding of levenshteinDistance of smartImport.ts: the dynamic
programming table over str2 (rows) and str1 (columns), returning
matrix[str2.length][str1.length], the last entry of the final row. -/
def levenshteinDistance (str1 str2 : JsStr) : Nat :=
  (levRows str1 str2 1 (List.range (str1.length + 1))).getD str1.length 0

/-- List of the prefixes of a string, shortest first; the column index
set of one matrix row. -/
def initsL : JsStr → List JsStr
  | [] => [[]]
  | x :: xs => [] :: (initsL xs).map fun q => x :: q

/-- Embedding of calculateStringSimilarity of smartImport.ts: the longer
string fixes the scale, two empty strings give similarity one, otherwise
the matrix distance is normalised by the longer length. -/
def calculateStringSimilarity (str1 str2 : JsStr) : ℚ :=
  let longer := if str1.length > str2.length then str1 else str2
  let shorter := if str1.length > str2.length then str2 else str1
  if longer.length = 0 then 1
  else ((longer.length : ℚ) - (levenshteinDistance longer shorter : ℚ)) /
    (longer.length : ℚ)

/-- Similarity as the specification words it: one minus the Levenshtein
distance over the maximum length, two empty strings giving one. -/
def specSimilarity (a b : JsStr) : ℚ :=
  if a.length = 0 ∧ b.length = 0 then 1
  else 1 - (levenshtein a b : ℚ) / ((max a.length b.length : ℕ) : ℚ)

/-- Embedding of checkForDuplicates of smartImport.ts.  Dates reach the
comparison through the JS Date constructor and getTime, an
environment-defined map from date strings to epoch milliseconds passed
in as the getTime parameter; the day difference divides by the
milliseconds of one day.  The scan returns at the first record within
three days whose amount matches the candidate magnitude below one cent
and whose lowercased descriptions exceed similarity four fifths. -/
def checkForDuplicates (getTime : JsStr → ℚ) (newTransaction : ParsedTransaction) :
    List Transaction → Bool
  | [] => false
  | existing :: rest =>
    let daysDiff := |getTime newTransaction.date - getTime existing.date| /
      (1000 * 60 * 60 * 24)
    if daysDiff ≤ 3 then
      if |existing.amount - abs newTransaction.amount| < 1 / 100 then
        if calculateStringSimilarity (jsToLower newTransaction.description)
            (jsToLower existing.description) > 4 / 5 then true
        else checkForDuplicates getTime newTransaction rest
      else checkForDuplicates getTime newTransaction rest
    else checkForDuplicates getTime newTransaction rest

/-- Match condition of the duplicate scan as the specification words it:
day difference at most three, amount difference against the candidate
magnitude below one hundredth, lowercased description similarity above
four fifths. -/
def duplicateMatch (getTime : JsStr → ℚ) (t : ParsedTransaction) (e : Transaction) : Prop :=
  |getTime t.date - getTime e.date| / (1000 * 60 * 60 * 24) ≤ 3 ∧
  |e.amount - abs t.amount| < 1 / 100 ∧
  specSimilarity (jsToLower t.description) (jsToLower e.description) > 4 / 5

/-- Income keywords of determineTransactionType in smartImport.ts. -/
def incomeKeywords : List JsStr :=
  [strL "salary", strL "paycheck", strL "wage", strL "bonus", strL "refund",
   strL "deposit", strL "interest", strL "dividend", strL "freelance"]

/-- Embedding of determineTransactionType of smartImport.ts: a truthy
type column naming credit, deposit or income gives income, naming debit,
withdrawal or expense gives expense; failing that an income keyword in
the description gives income; failing that the debit flag decides, and
the default is expense. -/
def determineTransactionType (description : JsStr) (typeColumn : Option JsStr)
    (isDebit : Option Bool) : TxType :=
  let byType : Option TxType :=
    match typeColumn with
    | some tc =>
      if tc = [] then none
      else
        let ty := jsToLower tc
        if strIncludes ty (strL "credit") || strIncludes ty (strL "deposit")
            || strIncludes ty (strL "income") then some TxType.income
        else if strIncludes ty (strL "debit") || strIncludes ty (strL "withdrawal")
            || strIncludes ty (strL "expense") then some TxType.expense
        else none
    | none => none
  match byType with
  | some t => t
  | none =>
    let desc := jsToLower description
    if incomeKeywords.any (fun k => strIncludes desc k) then TxType.income
    else
      match isDebit with
      | some d => if d then TxType.expense else TxType.income
      | none => TxType.expense

/-- Test of the anchored ISO date regex of DATE_PATTERNS: four digits,
dash, two digits, dash, two digits, end. -/
def dpISO (s : JsStr) : Bool :=
  match s with
  | [a, b, c, d, e, f, g, h, i, j] =>
    jsIsDigit a && jsIsDigit b && jsIsDigit c && jsIsDigit d && e = '-' &&
    jsIsDigit f && jsIsDigit g && h = '-' && jsIsDigit i && jsIsDigit j
  | _ => false

/-- Test of the anchored two-two-four date regexes of DATE_PATTERNS with
the given separator. -/
def dpFixed224 (sep : Char) (s : JsStr) : Bool :=
  match s with
  | [a, b, s1, c, d, s2, e, f, g, h] =>
    jsIsDigit a && jsIsDigit b && s1 = sep && jsIsDigit c && jsIsDigit d &&
    s2 = sep && jsIsDigit e && jsIsDigit f && jsIsDigit g && jsIsDigit h
  | _ => false

/-- Test of the anchored two-two-two slash date regex of DATE_PATTERNS. -/
def dpFixed222 (s : JsStr) : Bool :=
  match s with
  | [a, b, s1, c, d, s2, e, f] =>
    jsIsDigit a && jsIsDigit b && s1 = '/' && jsIsDigit c && jsIsDigit d &&
    s2 = '/' && jsIsDigit e && jsIsDigit f
  | _ => false

/-- Test of the anchored one-or-two-digit date regexes of DATE_PATTERNS
with the given separator: the backtracking regex succeeds exactly when
the full digit runs have length one or two and a four-digit year ends
the string. -/
def dpFlex (sep : Char) (s : JsStr) : Bool :=
  let d1 := s.takeWhile jsIsDigit
  (1 ≤ d1.length && d1.length ≤ 2) &&
  match s.drop d1.length with
  | c :: r2 =>
    c = sep &&
    (let d2 := r2.takeWhile jsIsDigit
     (1 ≤ d2.length && d2.length ≤ 2) &&
     match r2.drop d2.length with
     | c2 :: r3 => c2 = sep && r3.length = 4 && r3.all jsIsDigit
     | [] => false)
  | [] => false

/-- Disjunction of the six DATE_PATTERNS tests, in their list order. -/
def datePatternsTest (s : JsStr) : Bool :=
  dpISO s || dpFixed224 '/' s || dpFixed222 s || dpFixed224 '-' s ||
  dpFlex '/' s || dpFlex '-' s

/-- Test of the first AMOUNT_PATTERNS regex: optional minus, optional
dollar sign, digits, optional dot with optional digits, end. -/
def ap1 (s : JsStr) : Bool :=
  let s1 := if s.head? = some '-' then s.drop 1 else s
  let s2 := if s1.head? = some '$' then s1.drop 1 else s1
  let d := s2.takeWhile jsIsDigit
  (1 ≤ d.length : Bool) &&
  match s2.drop d.length with
  | [] => true
  | '.' :: rest => rest.all jsIsDigit
  | _ => false

/-- Comma-group chains of the second AMOUNT_PATTERNS regex: each comma
is followed by exactly three digits; the last group may be followed by
further digits (eaten by the trailing digit star) or by a dot and
digits. -/
def ap2Groups : JsStr → Bool
  | ',' :: a :: b :: c :: rest =>
    jsIsDigit a && jsIsDigit b && jsIsDigit c &&
    (match rest with
     | ',' :: r2 => ap2Groups (',' :: r2)
     | [] => true
     | '.' :: r2 => r2.all jsIsDigit
     | r2 => r2.all jsIsDigit)
  | _ => false
termination_by s => s.length
decreasing_by all_goals simp_arith

/-- Test of the second AMOUNT_PATTERNS regex: optional minus, one to
three digits before the first comma group (or any number of digits when
no comma follows, the trailing digit star eating the surplus), comma
groups of three, optional decimal tail. -/
def ap2 (s : JsStr) : Bool :=
  let s1 := if s.head? = some '-' then s.drop 1 else s
  let d := s1.takeWhile jsIsDigit
  (1 ≤ d.length : Bool) &&
  match s1.drop d.length with
  | [] => true
  | '.' :: rest => rest.all jsIsDigit
  | ',' :: rest => (d.length ≤ 3 : Bool) && ap2Groups (',' :: rest)
  | _ => false

/-- Test of the third AMOUNT_PATTERNS regex: digits with an optional
decimal tail wrapped in parentheses. -/
def ap3 (s : JsStr) : Bool :=
  match s with
  | '(' :: rest =>
    match rest.getLast? with
    | some ')' =>
      let inner := rest.dropLast
      let d := inner.takeWhile jsIsDigit
      (1 ≤ d.length : Bool) &&
      (match inner.drop d.length with
       | [] => true
       | '.' :: r2 => r2.all jsIsDigit
       | _ => false)
    | _ => false
  | _ => false

/-- Disjunction of the three AMOUNT_PATTERNS tests, in their list
order. -/
def amountPatternsTest (s : JsStr) : Bool := ap1 s || ap2 s || ap3 s

/-- Embedding of calculateParsingConfidence of smartImport.ts: date,
amount and description each contribute a band, capped at one. -/
def calculateParsingConfidence (dateStr descriptionStr amountStr : JsStr) : ℚ :=
  let c1 : ℚ := if datePatternsTest dateStr then 2 / 5
    else if 0 < dateStr.length then 1 / 5 else 0
  let c2 : ℚ := c1 + (if amountPatternsTest amountStr then 2 / 5
    else if ¬ DataParsers.jsParseFloat amountStr = none then 1 / 5 else 0)
  let c3 : ℚ := c2 + (if 5 < descriptionStr.length then 1 / 5
    else if 0 < descriptionStr.length then 1 / 10 else 0)
  min c3 1

/-- Second format of the parseDate copy in smartImport.ts: unlike the
data-parsers version it reassembles every slash match as month-day-year
without bounds checks. -/
def parseDateFormat2Old (d : JsStr) : Option JsStr :=
  match DataParsers.matchSlashDate d with
  | some (month, day, year) =>
    some (year ++ '-' :: padStart2 '0' month ++ '-' :: padStart2 '0' day)
  | none => none

/-- Fourth format of the parseDate copy in smartImport.ts: day-month
order only when the first group exceeds twelve. -/
def parseDateFormat4Old (d : JsStr) : Option JsStr :=
  match DataParsers.matchSlashDate d with
  | some (first, second, year) =>
    if 12 < natFromDigits first then
      some (year ++ '-' :: padStart2 '0' second ++ '-' :: padStart2 '0' first)
    else none
  | none => none

/-- Embedding of the parseDate copy in smartImport.ts.  Cleaning and the
first and third formats are textually identical to the data-parsers
module and shared; the Date-constructor fallback is environment-defined
and passed in, and on its failure the cleaned string itself is
returned. -/
def parseDate (dateFallback : JsStr → Option JsStr) (dateStr : JsStr) : JsStr :=
  let cleaned := DataParsers.parseDateCleaned dateStr
  match DataParsers.parseDateFormat1 cleaned with
  | some r => r
  | none =>
  match parseDateFormat2Old cleaned with
  | some r => r
  | none =>
  match DataParsers.parseDateFormat3 cleaned with
  | some r => r
  | none =>
  match parseDateFormat4Old cleaned with
  | some r => r
  | none =>
    match dateFallback cleaned with
    | some r => r
    | none => cleaned

/-- Amount handling of the processImportedTransactions loop: the pair
of the parsed amount and the debit flag, or none where the loop
continues for want of a usable amount source.  A present debit and
credit column pair takes precedence; a nonblank, nonzero debit cell wins
over the credit cell; under a single amount column a blank cell skips
and anything else is parsed, the debit flag recording a negative
parse. -/
def amountSource (columnMapping : ColumnMapping) (row : ImportedRow) :
    Option (ℚ × Bool) :=
  if ¬ columnMapping.debitColumn = [] ∧ ¬ columnMapping.creditColumn = [] then
    let debitStr := jsTrim (rowStr row columnMapping.debitColumn)
    let creditStr := jsTrim (rowStr row columnMapping.creditColumn)
    if ¬ debitStr = [] ∧ ¬ debitStr = strL "0" ∧ ¬ debitStr = strL "0.00" then
      some (DataParsers.parseAmount debitStr, true)
    else if ¬ creditStr = [] ∧ ¬ creditStr = strL "0" ∧ ¬ creditStr = strL "0.00" then
      some (DataParsers.parseAmount creditStr, false)
    else none
  else if ¬ columnMapping.amountColumn = [] then
    let amountStr := rowStr row columnMapping.amountColumn
    if amountStr = [] then none
    else some (DataParsers.parseAmount amountStr,
      decide (DataParsers.parseAmount amountStr < 0))
  else none

/-- Embedding of one iteration of the processImportedTransactions loop
of smartImport.ts.  The environment enters as parameters: the stored
transactions that loadTransactions would read, the UUID source, the
Date-constructor fallback of parseDate, the date-to-milliseconds map of
the duplicate scan, and JS number-to-string formatting.  The result is
none exactly where the loop continues without emitting. -/
def processRow (existingTransactions : List Transaction) (uuid : ImportedRow → JsStr)
    (dateFallback : JsStr → Option JsStr) (getTime : JsStr → ℚ)
    (numToString : ℚ → JsStr) (columnMapping : ColumnMapping) (row : ImportedRow) :
    Option ParsedTransaction :=
  let dateStr := rowStr row columnMapping.dateColumn
  let descriptionStr := rowStr row columnMapping.descriptionColumn
  match amountSource columnMapping row with
  | none => none
  | some (amount, isDebit) =>
    if dateStr = [] ∨ descriptionStr = [] then none
    else
      let transaction : ParsedTransaction :=
        { id := uuid row
          date := parseDate dateFallback dateStr
          description := descriptionStr
          amount := |amount|
          category := if ¬ columnMapping.categoryColumn = [] then
              rowStr row columnMapping.categoryColumn
            else []
          type := some (determineTransactionType descriptionStr
            (if ¬ columnMapping.typeColumn = [] then
              some (rowStrU row columnMapping.typeColumn)
            else none)
            (some isDebit))
          isDuplicate := false
          duplicateReason := []
          confidence := calculateParsingConfidence dateStr descriptionStr
            (numToString amount)
          originalRow := row }
      if checkForDuplicates getTime transaction existingTransactions then
        some { transaction with
          isDuplicate := true
          duplicateReason := strL "Similar transaction found (date, amount, description)" }
      else some transaction

/-- Embedding of processImportedTransactions of smartImport.ts: the loop
emits one candidate per row, in order, skipping the rows where
processRow yields none (the per-row try-catch of the source cannot fire
in this pure model). -/
def processImportedTransactions (existingTransactions : List Transaction)
    (uuid : ImportedRow → JsStr) (dateFallback : JsStr → Option JsStr)
    (getTime : JsStr → ℚ) (numToString : ℚ → JsStr)
    (rows : List ImportedRow) (columnMapping : ColumnMapping) :
    List ParsedTransaction :=
  rows.filterMap
    (processRow existingTransactions uuid dateFallback getTime numToString columnMapping)

/-- Unusable debit or credit cell as the specification words it: blank
after trimming, or the literal 0 or 0.00. -/
def debitCreditUnusable (v : JsStr) : Prop :=
  jsTrim v = [] ∨ jsTrim v = strL "0" ∨ jsTrim v = strL "0.00"

/-- Row-skip condition as the specification words it: empty raw date,
empty raw description, or an unusable amount source - both debit and
credit cells unusable under a debit/credit mapping, the single amount
cell blank under an amount-column mapping. -/
def specRowSkipped (m : ColumnMapping) (row : ImportedRow) : Prop :=
  rowStr row m.dateColumn = [] ∨ rowStr row m.descriptionColumn = [] ∨
  (if ¬ m.debitColumn = [] ∧ ¬ m.creditColumn = [] then
    debitCreditUnusable (rowStr row m.debitColumn) ∧
    debitCreditUnusable (rowStr row m.creditColumn)
  else rowStr row m.amountColumn = [])

/-- Word characters of the regex word class: ASCII letters, digits and
the underscore. -/
def isWordChar (c : Char) : Bool :=
  (65 ≤ c.toNat ∧ c.toNat ≤ 90) ∨ (97 ≤ c.toNat ∧ c.toNat ≤ 122) ∨
  (48 ≤ c.toNat ∧ c.toNat ≤ 57) ∨ c.toNat = 95

/-- Model of the whitespace-collapsing regex replace of
normalizeDescription: every maximal whitespace run becomes one space.
The flag records whether the walk is inside a run. -/
def collapseWsGo : Bool → JsStr → JsStr
  | _, [] => []
  | inRun, c :: cs =>
    if isJsSpace c then
      (if inRun then collapseWsGo true cs else ' ' :: collapseWsGo true cs)
    else c :: collapseWsGo false cs

/-- Whitespace collapse starting outside any run. -/
def collapseWs (s : JsStr) : JsStr := collapseWsGo false s

/-- Embedding of normalizeDescription of smartImport.ts: lowercase,
remove digits, remove the characters outside the word and whitespace
classes, collapse whitespace, trim. -/
def normalizeDescription (description : JsStr) : JsStr :=
  jsTrim (collapseWs (((jsToLower description).filter fun c => ¬ jsIsDigit c = true).filter
    fun c => isWordChar c = true ∨ isJsSpace c = true))

/-- Group key of groupTransactionsByDescription: the normalized
description, marked with the duplicate suffix for duplicate-flagged
transactions. -/
def groupKey (t : ParsedTransaction) : JsStr :=
  if t.isDuplicate then normalizeDescription t.description ++ strL "__DUPLICATE"
  else normalizeDescription t.description

/-- Insertion into the map of groups: an existing key appends the
transaction at its entry, a new key opens a singleton entry at the end
(JS Map iteration is insertion-ordered). -/
def addToGroups (key : JsStr) (t : ParsedTransaction) :
    List (JsStr × List ParsedTransaction) → List (JsStr × List ParsedTransaction)
  | [] => [(key, [t])]
  | (k, ts) :: rest =>
    if k = key then (k, ts ++ [t]) :: rest else (k, ts) :: addToGroups key t rest

/-- The grouping fold of groupTransactionsByDescription over the
transactions. -/
def buildGroups : List ParsedTransaction → List (JsStr × List ParsedTransaction) →
    List (JsStr × List ParsedTransaction)
  | [], acc => acc
  | t :: ts, acc => buildGroups ts (addToGroups (groupKey t) t acc)

/-- Embedding of getMostCommonType of smartImport.ts: the reduce over
the income and expense counters in entry order keeps income only on a
strict majority. -/
def getMostCommonType (transactions : List ParsedTransaction) : TxType :=
  let incomeCount :=
    (transactions.filter fun t => t.type.getD TxType.expense = TxType.income).length
  let expenseCount :=
    (transactions.filter fun t => t.type.getD TxType.expense = TxType.expense).length
  if incomeCount > expenseCount then TxType.income else TxType.expense

/-- Stable insertion before the first entry the element may precede;
together with sortStable this models Array.prototype.sort, which the
language specification requires to be stable - and for a total preorder
comparator the stable sorted permutation is unique. -/
def insSorted (le : TransactionGroup → TransactionGroup → Bool) (x : TransactionGroup) :
    List TransactionGroup → List TransactionGroup
  | [] => [x]
  | y :: ys => if le x y then x :: y :: ys else y :: insSorted le x ys

/-- Stable insertion sort. -/
def sortStable (le : TransactionGroup → TransactionGroup → Bool) :
    List TransactionGroup → List TransactionGroup
  | [] => []
  | x :: xs => insSorted le x (sortStable le xs)

/-- Comparator of the final sort of groupTransactionsByDescription:
descending member count. -/
def groupLe (a b : TransactionGroup) : Bool :=
  b.transactions.length ≤ a.transactions.length

/-- Embedding of groupTransactionsByDescription of smartImport.ts:
group by the duplicate-marked normalized description, keep the keys with
more than one member, strip the duplicate marker into the display suffix
and sort by descending member count. -/
def groupTransactionsByDescription (transactions : List ParsedTransaction) :
    List TransactionGroup :=
  let groups := buildGroups transactions []
  let result := groups.filterMap fun p =>
    if 1 < p.2.length then
      let description := replaceFirst (strL "__DUPLICATE") [] p.1
      let isDuplicateGroup := strIncludes p.1 (strL "__DUPLICATE")
      some { description := if isDuplicateGroup then description ++ strL " (Duplicates)"
               else description
             transactions := p.2
             suggestedType := some (getMostCommonType p.2)
             suggestedCategory := []
             includeInImport := true }
    else none
  sortStable groupLe result

/-- Characters a normalized description can hold: lowercase ASCII
letters, the underscore, the plain space. -/
def isCanonChar (c : Char) : Prop :=
  (97 ≤ c.toNat ∧ c.toNat ≤ 122) ∨ c.toNat = 95 ∨ c = ' '

/-- Adjacent characters are never both whitespace. -/
def noSpaceRun (s : JsStr) : Prop :=
  s.Chain' fun a b => ¬ (isJsSpace a = true ∧ isJsSpace b = true)

end SmartImport

namespace ColumnDetection

/-!
Embedding of detectColumnMappings of column-detection.ts, which imports
ImportedRow, ColumnMapping, DATE_PATTERNS, AMOUNT_PATTERNS and
COLUMN_MAPPINGS from types.ts and detectBasilCSV from csv-parser.ts.
The DATE_PATTERNS and AMOUNT_PATTERNS of types.ts list exactly the
regexes embedded as SmartImport.datePatternsTest and
SmartImport.amountPatternsTest, which are reused here. Optional columns
of the ColumnMapping interface are absent exactly when the stored name
is empty, matching how the source only ever consumes them through
truthiness tests.
-/

/-- COLUMN_MAPPINGS.date of types.ts. -/
def cmDate : List JsStr :=
  [strL "date", strL "transaction date", strL "trans date", strL "posted date",
   strL "effective date", strL "value date"]

/-- COLUMN_MAPPINGS.description of types.ts. -/
def cmDescription : List JsStr :=
  [strL "description", strL "memo", strL "reference", strL "details",
   strL "transaction details", strL "payee", strL "merchant"]

/-- COLUMN_MAPPINGS.amount of types.ts. -/
def cmAmount : List JsStr :=
  [strL "amount", strL "transaction amount", strL "value", strL "sum", strL "total"]

/-- COLUMN_MAPPINGS.debit of types.ts. -/
def cmDebit : List JsStr :=
  [strL "debit", strL "debit amount", strL "withdrawal", strL "outgoing"]

/-- COLUMN_MAPPINGS.credit of types.ts. -/
def cmCredit : List JsStr :=
  [strL "credit", strL "credit amount", strL "deposit", strL "incoming"]

/-- COLUMN_MAPPINGS.category of types.ts. -/
def cmCategory : List JsStr :=
  [strL "category", strL "merchant category", strL "category code"]

/-- COLUMN_MAPPINGS.type of types.ts. -/
def cmType : List JsStr :=
  [strL "type", strL "transaction type", strL "dr/cr", strL "debit/credit"]

/-- The ColumnMapping interface of types.ts: the required date,
description and amount columns plus the optional columns, empty when
absent, and the optional canonical-format flag. -/
structure ColumnMapping where
  dateColumn : JsStr := []
  descriptionColumn : JsStr := []
  amountColumn : JsStr := []
  debitColumn : JsStr := []
  creditColumn : JsStr := []
  categoryColumn : JsStr := []
  typeColumn : JsStr := []
  createdAtColumn : JsStr := []
  isBasilCSV : Option Bool := none
deriving DecidableEq

/-- The fixed mapping returned for a recognized Basil export. -/
def basilMapping : ColumnMapping where
  dateColumn := strL "Date"
  descriptionColumn := strL "Description"
  amountColumn := strL "Amount"
  categoryColumn := strL "Category"
  typeColumn := strL "Type"
  createdAtColumn := strL "Created At"
  isBasilCSV := some true

/-- The longest-text-column fallback for the description column: the
average String(row[header]).length over the first ten rows, skipping
the date and amount columns, keeping the first strict maximum. -/
def longestTextColumn (rows : List ImportedRow) (headers : List JsStr)
    (dateColumn amountColumn : JsStr) : JsStr :=
  (headers.foldl (fun acc header =>
    if ¬ header = dateColumn ∧ ¬ header = amountColumn then
      let avgLength : ℚ :=
        (((rows.take 10).map fun row => ((rowStrU row header).length : ℚ)).sum) /
          ((min 10 rows.length : ℕ) : ℚ)
      if acc.2 < avgLength then (header, avgLength) else acc
    else acc) ([], 0)).1

/-- The heuristic part of detectColumnMappings: first-match scans of
the headers by name, content-pattern fallbacks for the date and amount
columns, the longest-text fallback for the description column, and the
guarded single-pass scan for the category and type columns. -/
def heuristicMappings (rows : List ImportedRow) (headers : List JsStr) : ColumnMapping :=
  let dateByName := (headers.find? fun header =>
    cmDate.any fun pattern => strIncludes (jsToLower header) pattern).getD []
  let dateColumn := if dateByName = [] then
      (headers.find? fun header =>
        let sampleValues := (rows.take 5).map fun row => rowStrU row header
        min 3 sampleValues.length ≤
          (sampleValues.filter SmartImport.datePatternsTest).length).getD []
    else dateByName
  let amountByName := (headers.find? fun header =>
    cmAmount.any fun pattern => strIncludes (jsToLower header) (jsToLower pattern)).getD []
  let debitColumn := (headers.find? fun header =>
    cmDebit.any fun pattern => strIncludes (jsToLower header) (jsToLower pattern)).getD []
  let creditColumn := (headers.find? fun header =>
    cmCredit.any fun pattern => strIncludes (jsToLower header) (jsToLower pattern)).getD []
  let amountColumn :=
    if amountByName = [] ∧ ¬ (¬ debitColumn = [] ∧ ¬ creditColumn = []) then
      (headers.find? fun header =>
        let sampleValues := (rows.take 5).map fun row => rowStrU row header
        min 3 sampleValues.length ≤
          (sampleValues.filter SmartImport.amountPatternsTest).length).getD []
    else amountByName
  let descByName := (headers.find? fun header =>
    cmDescription.any fun pattern => strIncludes (jsToLower header) pattern).getD []
  let descriptionColumn := if descByName = [] then
      longestTextColumn rows headers dateColumn amountColumn
    else descByName
  let categoryColumn := (headers.find? fun header =>
    cmCategory.any fun pattern => strIncludes (jsToLower header) (jsToLower pattern)).getD []
  let typeColumn := (headers.find? fun header =>
    cmType.any fun pattern => strIncludes (jsToLower header) (jsToLower pattern)).getD []
  { dateColumn := dateColumn
    descriptionColumn := descriptionColumn
    amountColumn := amountColumn
    debitColumn := debitColumn
    creditColumn := creditColumn
    categoryColumn := categoryColumn
    typeColumn := typeColumn }

/-- Embedding of detectColumnMappings of column-detection.ts: the empty
mapping for no rows, the fixed canonical mapping when the first row's
headers form a Basil export, the heuristics otherwise. -/
def detectColumnMappings (rows : List ImportedRow) : ColumnMapping :=
  match rows with
  | [] => {}
  | r :: rest =>
    let headers := rowKeys r
    if CsvParser.detectBasilCSV headers then basilMapping
    else heuristicMappings (r :: rest) headers

end ColumnDetection

/-!
Theorems.
-/

/-- Helper: ASCII digits have codes between 48 and 57. -/
theorem digit_bounds {c : Char} (h : jsIsDigit c = true) :
    48 ≤ c.toNat ∧ c.toNat ≤ 57 := by
  simpa [jsIsDigit, decide_eq_true_eq] using h

/-- Helper: a digit is not JS whitespace. -/
theorem not_space_of_digit {c : Char} (h : jsIsDigit c = true) :
    isJsSpace c = false := by
  have hb := digit_bounds h
  simp only [isJsSpace, decide_eq_false_iff_not]
  push_neg
  omega

/-- Helper: taking while a predicate holds stops exactly at the first
failing element placed after a satisfying block. -/
theorem takeWhile_append_stop {p : Char → Bool} {xs : JsStr} (y : Char) (ys : JsStr)
    (h1 : ∀ x ∈ xs, p x = true) (h2 : p y = false) :
    (xs ++ y :: ys).takeWhile p = xs := by
  induction xs with
  | nil => simp [List.takeWhile_cons, h2]
  | cons a l ih =>
    have ha : p a = true := h1 a (List.mem_cons_self a l)
    simp only [List.cons_append, List.takeWhile_cons, ha, if_true]
    rw [ih fun x hx => h1 x (List.mem_cons_of_mem a hx)]

/-- Helper: dropWhile distributes over an append whose right part starts
with a failing element. -/
theorem dropWhile_append_cons {p : Char → Bool} (xs : JsStr) {y : Char} (ys : JsStr)
    (h : p y = false) :
    (xs ++ y :: ys).dropWhile p = xs.dropWhile p ++ y :: ys := by
  induction xs with
  | nil => simp [List.dropWhile_cons, h]
  | cons a l ih =>
    by_cases ha : p a = true
    · simp only [List.cons_append, List.dropWhile_cons, ha, if_true]
      exact ih
    · simp only [List.cons_append, List.dropWhile_cons, eq_false_of_ne_true ha]
      simp

/-- Helper: trimming an append whose left block starts and ends with
non-whitespace only trims inside the right part. -/
theorem jsTrim_append (xs ys : JsStr)
    (hhead : ∃ c cs, xs = c :: cs ∧ isJsSpace c = false)
    (hlast : ∃ c cs, xs.reverse = c :: cs ∧ isJsSpace c = false) :
    jsTrim (xs ++ ys) = xs ++ (ys.reverse.dropWhile isJsSpace).reverse := by
  obtain ⟨c, cs, hx, hc⟩ := hhead
  obtain ⟨d, ds, hr, hd⟩ := hlast
  unfold jsTrim
  have step1 : (xs ++ ys).dropWhile isJsSpace = xs ++ ys := by
    rw [hx]
    simp [List.dropWhile_cons, hc]
  rw [step1, List.reverse_append, hr, dropWhile_append_cons _ _ hd, ← hr]
  simp

namespace DataParsers

/-- Helper: evaluation of jsParseFloat on the two-character string -5. -/
theorem jsParseFloat_neg5 : jsParseFloat (strL "-5") = some (-5) := by
  have hp : jsParseFloatParts (strL "-5") = some (true, strL "5", [], 0) := by decide
  have h5 : natFromDigits (strL "5" ++ []) = 5 := by decide
  simp only [jsParseFloat, hp, h5]
  norm_num

/-- Claim C2, counterexample: on the input dollar-minus-five the result
of parseAmount is negative although the trimmed input is not wrapped in
parentheses and does not start with a minus sign, contradicting the
claimed sign characterisation. -/
theorem parseAmount_counterexample_C2 :
    parseAmount (strL "$-5") < 0 ∧
    parensTest (jsTrim (strL "$-5")) = false ∧
    ¬ (jsTrim (strL "$-5")).head? = some '-' := by
  have hc : parseAmountCleaned (strL "$-5") = strL "-5" := by decide
  have hp : parensTest (jsTrim (strL "$-5")) = false := by decide
  have hh : ¬ (jsTrim (strL "$-5")).head? = some '-' := by decide
  refine ⟨?_, hp, hh⟩
  simp only [parseAmount, hc, jsParseFloat_neg5, hp, hh]
  norm_num

/-- Claim C2, amended: the result of parseAmount is negative exactly
when a numeric value was parsed from the cleaned string, that value is
nonzero, and either the trimmed input is parenthesized, or it starts
with a minus sign, or the parsed value itself is negative (as for
dollar-minus-five, where the minus survives currency-symbol removal);
the magnitude of the result always equals the absolute value of the
parsed value, with 0 standing in when no valid numeric value exists. -/
theorem parseAmount_sign_magnitude (s : JsStr) :
    (parseAmount s < 0 ↔ ∃ a, jsParseFloat (parseAmountCleaned s) = some a ∧ a ≠ 0 ∧
        (parensTest (jsTrim s) = true ∨ (jsTrim s).head? = some '-' ∨ a < 0))
    ∧ |parseAmount s| = |(jsParseFloat (parseAmountCleaned s)).getD 0| := by
  rcases h : jsParseFloat (parseAmountCleaned s) with _ | a
  · constructor
    · simp [parseAmount, h]
    · simp [parseAmount, h]
  · by_cases hneg : parensTest (jsTrim s) = true ∨ (jsTrim s).head? = some '-'
    · have hval : parseAmount s = -|a| := by
        simp only [parseAmount, h]
        rw [if_pos hneg]
      constructor
      · rw [hval]
        constructor
        · intro hlt
          have ha0 : a ≠ 0 := by
            intro h0
            rw [h0] at hlt
            simp at hlt
          refine ⟨a, rfl, ha0, ?_⟩
          rcases hneg with h1 | h1
          · exact Or.inl h1
          · exact Or.inr (Or.inl h1)
        · rintro ⟨b, hb, hb0, -⟩
          have hab : a = b := Option.some.inj hb
          subst hab
          simpa using abs_pos.mpr hb0
      · rw [hval]
        simp
    · have hval : parseAmount s = a := by
        simp only [parseAmount, h]
        rw [if_neg hneg]
      push_neg at hneg
      constructor
      · rw [hval]
        constructor
        · intro hlt
          exact ⟨a, rfl, ne_of_lt hlt, Or.inr (Or.inr hlt)⟩
        · rintro ⟨b, hb, hb0, hcond⟩
          have hab : a = b := Option.some.inj hb
          subst hab
          rcases hcond with h1 | h1 | h1
          · exact absurd h1 (by simpa using hneg.1)
          · exact absurd h1 hneg.2
          · exact h1
      · rw [hval]
        simp

/-- Helper: the ISO matcher needs a digit in second position. -/
theorem matchISOHead_false_two (x0 x1 : Char) (s : JsStr) (h : jsIsDigit x1 = false) :
    matchISOHead (x0 :: x1 :: s) = false := by
  rcases s with _ | ⟨a, _ | ⟨b, _ | ⟨c, _ | ⟨d, _ | ⟨e, _ | ⟨f, _ | ⟨g, _ | ⟨k, t⟩⟩⟩⟩⟩⟩⟩⟩ <;>
    simp [matchISOHead, h]

/-- Helper: the ISO matcher needs a digit in third position. -/
theorem matchISOHead_false_three (x0 x1 x2 : Char) (s : JsStr) (h : jsIsDigit x2 = false) :
    matchISOHead (x0 :: x1 :: x2 :: s) = false := by
  rcases s with _ | ⟨a, _ | ⟨b, _ | ⟨c, _ | ⟨d, _ | ⟨e, _ | ⟨f, _ | ⟨g, t⟩⟩⟩⟩⟩⟩⟩ <;>
    simp [matchISOHead, h]

/-- Claim C5: every string beginning with a month-day-year slash shape
(one- or two-digit first and second groups, four-digit year) whose first
group is at most twelve and second at most thirty-one is rewritten by
parseDate into year-month-day with the two groups zero-padded into the
month and day slots, for every behaviour of the date fallback. -/
theorem parseDate_mmddyyyy_C5 (fb : JsStr → JsStr) (d1 d2 y rest : JsStr)
    (h1 : d1.all jsIsDigit = true) (h1l : 1 ≤ d1.length) (h1u : d1.length ≤ 2)
    (h2 : d2.all jsIsDigit = true) (h2l : 1 ≤ d2.length) (h2u : d2.length ≤ 2)
    (hy : y.all jsIsDigit = true) (hyl : y.length = 4)
    (hm : natFromDigits d1 ≤ 12) (hd : natFromDigits d2 ≤ 31) :
    parseDate fb (d1 ++ '/' :: d2 ++ '/' :: y ++ rest)
      = y ++ '-' :: padStart2 '0' d1 ++ '-' :: padStart2 '0' d2 := by
  have hd1m : ∀ x ∈ d1, jsIsDigit x = true := by simpa [List.all_eq_true] using h1
  have hd2m : ∀ x ∈ d2, jsIsDigit x = true := by simpa [List.all_eq_true] using h2
  have hym : ∀ x ∈ y, jsIsDigit x = true := by simpa [List.all_eq_true] using hy
  rcases y with _ | ⟨y1, _ | ⟨y2, _ | ⟨y3, _ | ⟨y4, _ | ⟨y5, ytl⟩⟩⟩⟩⟩ <;>
    simp only [List.length] at hyl <;> try omega
  rcases d1 with _ | ⟨a1, d1tl⟩
  · simp at h1l
  have hy1 : jsIsDigit y1 = true := hym y1 (by simp)
  have hy2 : jsIsDigit y2 = true := hym y2 (by simp)
  have hy3 : jsIsDigit y3 = true := hym y3 (by simp)
  have hy4 : jsIsDigit y4 = true := hym y4 (by simp)
  have ha1 : jsIsDigit a1 = true := hd1m a1 (by simp)
  set A : JsStr := (a1 :: d1tl) ++ ('/' :: (d2 ++ ('/' :: [y1, y2, y3, y4]))) with hA
  have hsplit : (a1 :: d1tl) ++ '/' :: d2 ++ '/' :: [y1, y2, y3, y4] ++ rest
      = A ++ rest := by simp [hA]
  have hArev : A.reverse
      = y4 :: y3 :: y2 :: y1 :: ('/' :: (d2.reverse ++ ('/' :: (a1 :: d1tl).reverse))) := by
    simp [hA]
  have htrim : jsTrim (A ++ rest)
      = A ++ (rest.reverse.dropWhile isJsSpace).reverse := by
    refine jsTrim_append A rest
      ⟨a1, d1tl ++ ('/' :: (d2 ++ ('/' :: [y1, y2, y3, y4]))), by simp [hA],
        not_space_of_digit ha1⟩
      ⟨y4, y3 :: y2 :: y1 :: ('/' :: (d2.reverse ++ ('/' :: (a1 :: d1tl).reverse))), hArev,
        not_space_of_digit hy4⟩
  have hdigitKeep : ∀ x : Char, jsIsDigit x = true →
      ((¬ (x.toNat = 39 ∨ x.toNat = 34)) : Bool) = true := by
    intro x hx
    have := digit_bounds hx
    simp only [decide_eq_true_eq]
    omega
  have hAkeep : ∀ c ∈ A, (¬ (c.toNat = 39 ∨ c.toNat = 34) : Bool) = true := by
    intro c hc
    have hslash : ((¬ (('/' : Char).toNat = 39 ∨ ('/' : Char).toNat = 34)) : Bool) = true := by
      decide
    rw [hA] at hc
    rcases List.mem_append.mp hc with hc | hc
    · exact hdigitKeep _ (hd1m _ hc)
    rcases List.mem_cons.mp hc with hc | hc
    · subst hc; exact hslash
    rcases List.mem_append.mp hc with hc | hc
    · exact hdigitKeep _ (hd2m _ hc)
    rcases List.mem_cons.mp hc with hc | hc
    · subst hc; exact hslash
    · exact hdigitKeep _ (hym c (by simpa using hc))
  have hclean : parseDateCleaned (A ++ rest)
      = A ++ ((rest.reverse.dropWhile isJsSpace).reverse.filter
          fun c => ¬ (c.toNat = 39 ∨ c.toNat = 34)) := by
    unfold parseDateCleaned
    rw [htrim, List.filter_append, List.filter_eq_self.mpr hAkeep]
  set restC : JsStr := (rest.reverse.dropWhile isJsSpace).reverse.filter
      (fun c => ¬ (c.toNat = 39 ∨ c.toNat = 34)) with hrestC
  have hshape : A ++ restC
      = (a1 :: d1tl) ++ ('/' :: (d2 ++ ('/' :: (y1 :: y2 :: y3 :: y4 :: restC)))) := by
    simp [hA]
  have hiso : matchISOHead (a1 :: (d1tl ++ ('/' :: (d2 ++ ('/'
      :: (y1 :: y2 :: y3 :: y4 :: restC)))))) = false := by
    rcases d1tl with _ | ⟨b1, d1tl2⟩
    · exact matchISOHead_false_two a1 '/'
        (d2 ++ ('/' :: (y1 :: y2 :: y3 :: y4 :: restC))) (by decide)
    · rcases d1tl2 with _ | ⟨c1, d1tl3⟩
      · exact matchISOHead_false_three a1 b1 '/'
          (d2 ++ ('/' :: (y1 :: y2 :: y3 :: y4 :: restC))) (by decide)
      · simp at h1u
  have htw1 : ((a1 :: d1tl) ++ ('/' :: (d2 ++ ('/'
      :: (y1 :: y2 :: y3 :: y4 :: restC))))).takeWhile jsIsDigit = a1 :: d1tl :=
    takeWhile_append_stop '/' (d2 ++ ('/' :: (y1 :: y2 :: y3 :: y4 :: restC)))
      hd1m (by decide)
  have hdrop1 : ((a1 :: d1tl) ++ ('/' :: (d2 ++ ('/'
      :: (y1 :: y2 :: y3 :: y4 :: restC))))).drop (a1 :: d1tl).length
      = '/' :: (d2 ++ ('/' :: (y1 :: y2 :: y3 :: y4 :: restC))) :=
    List.drop_left _ _
  have htw2 : (d2 ++ ('/' :: (y1 :: y2 :: y3 :: y4 :: restC))).takeWhile jsIsDigit = d2 :=
    takeWhile_append_stop '/' (y1 :: y2 :: y3 :: y4 :: restC) hd2m (by decide)
  have hdrop2 : (d2 ++ ('/' :: (y1 :: y2 :: y3 :: y4 :: restC))).drop d2.length
      = '/' :: (y1 :: y2 :: y3 :: y4 :: restC) :=
    List.drop_left _ _
  have hms : matchSlashDate ((a1 :: d1tl) ++ ('/' :: (d2 ++ ('/'
      :: (y1 :: y2 :: y3 :: y4 :: restC))))) = some (a1 :: d1tl, d2, [y1, y2, y3, y4]) := by
    unfold matchSlashDate
    simp only [htw1, hdrop1]
    rw [if_pos (show 1 ≤ (a1 :: d1tl).length ∧ (a1 :: d1tl).length ≤ 2 from ⟨h1l, h1u⟩)]
    simp only [htw2, hdrop2]
    rw [if_pos (show 1 ≤ d2.length ∧ d2.length ≤ 2 from ⟨h2l, h2u⟩)]
    have htake : (y1 :: y2 :: y3 :: y4 :: restC).take 4 = [y1, y2, y3, y4] := rfl
    simp only [htake]
    rw [if_pos (show ([y1, y2, y3, y4] : JsStr).length = 4
      ∧ ([y1, y2, y3, y4] : JsStr).all jsIsDigit = true from
        ⟨rfl, by simp [hy1, hy2, hy3, hy4]⟩)]
  have hf1 : parseDateFormat1 (parseDateCleaned (A ++ rest)) = none := by
    rw [hclean]
    unfold parseDateFormat1
    rw [show A ++ restC = (a1 :: d1tl) ++ ('/' :: (d2 ++ ('/'
      :: (y1 :: y2 :: y3 :: y4 :: restC)))) from hshape]
    simp [hiso]
  have hf2 : parseDateFormat2 (parseDateCleaned (A ++ rest))
      = some ([y1, y2, y3, y4] ++ '-' :: padStart2 '0' (a1 :: d1tl)
          ++ '-' :: padStart2 '0' d2) := by
    rw [hclean]
    unfold parseDateFormat2
    rw [show A ++ restC = (a1 :: d1tl) ++ ('/' :: (d2 ++ ('/'
      :: (y1 :: y2 :: y3 :: y4 :: restC)))) from hshape]
    rw [hms]
    simp [hm, hd]
  rw [hsplit]
  simp only [parseDate, hf1, hf2]

/-- Witness for claim C5: the theorem applied to the concrete input
1/2/2023 with an inert fallback. -/
theorem parseDate_mmddyyyy_C5_witness :
    (strL "1").all jsIsDigit = true ∧ 1 ≤ (strL "1").length ∧ (strL "1").length ≤ 2 ∧
    (strL "2").all jsIsDigit = true ∧ 1 ≤ (strL "2").length ∧ (strL "2").length ≤ 2 ∧
    (strL "2023").all jsIsDigit = true ∧ (strL "2023").length = 4 ∧
    natFromDigits (strL "1") ≤ 12 ∧ natFromDigits (strL "2") ≤ 31 ∧
    parseDate (fun _ => []) (strL "1" ++ '/' :: strL "2" ++ '/' :: strL "2023" ++ [])
      = strL "2023" ++ '-' :: padStart2 '0' (strL "1") ++ '-' :: padStart2 '0' (strL "2") :=
  ⟨by decide, by decide, by decide, by decide, by decide, by decide, by decide, by decide,
   by decide, by decide,
   parseDate_mmddyyyy_C5 (fun _ => []) (strL "1") (strL "2") (strL "2023") []
     (by decide) (by decide) (by decide) (by decide) (by decide) (by decide)
     (by decide) (by decide) (by decide) (by decide)⟩

end DataParsers

namespace CsvParser

/-- Claim C6: delimiter inference counts the occurrences of semicolon,
comma, tab and pipe in the header line (parseCSV hands it only the first
non-blank line), chooses the delimiter with the highest count, prefers
the earlier candidate in that priority order on ties (in particular the
semicolon over the comma), and falls back to the comma when every count
is zero. -/
theorem detectDelimiter_C6 (line : JsStr) : detectDelimiter line = specDelimiter line := by
  unfold detectDelimiter specDelimiter delimiterCandidates
  simp only [List.foldl]
  split_ifs <;> simp_all <;> omega

end CsvParser

namespace SmartImport

/-- Unfolding of levRec on an empty first argument. -/
theorem levRec_nil_left (ys : JsStr) : levRec [] ys = ys.length := by
  simp [levRec]

/-- Unfolding of levRec on an empty second argument. -/
theorem levRec_nil_right (xs : JsStr) : levRec xs [] = xs.length := by
  cases xs <;> simp [levRec]

/-- Unfolding of levRec on two nonempty strings. -/
theorem levRec_cons_cons (x y : Char) (xs ys : JsStr) :
    levRec (x :: xs) (y :: ys) =
      if x = y then levRec xs ys
      else 1 + min (levRec xs ys) (min (levRec xs (y :: ys)) (levRec (x :: xs) ys)) := by
  simp [levRec]

/-- The Levenshtein recurrence is symmetric in its two strings. -/
theorem levRec_symm (xs ys : JsStr) : levRec xs ys = levRec ys xs := by
  have key : ∀ n, ∀ xs ys : JsStr, xs.length + ys.length = n →
      levRec xs ys = levRec ys xs := by
    intro n
    induction n using Nat.strong_induction_on with
    | _ n ih =>
      intro xs ys hn
      cases xs with
      | nil => cases ys <;> simp [levRec]
      | cons x xs =>
        cases ys with
        | nil => simp [levRec]
        | cons y ys =>
          subst hn
          rw [levRec_cons_cons, levRec_cons_cons]
          by_cases hxy : x = y
          · subst hxy
            rw [if_pos rfl, if_pos rfl]
            exact ih (xs.length + ys.length) (by simp_arith) xs ys rfl
          · rw [if_neg hxy, if_neg fun h => hxy h.symm]
            have h1 := ih (xs.length + ys.length) (by simp_arith) xs ys rfl
            have h2 := ih (xs.length + (y :: ys).length) (by simp_arith) xs (y :: ys) rfl
            have h3 := ih ((x :: xs).length + ys.length) (by simp_arith) (x :: xs) ys rfl
            rw [h1, h2, h3]
            omega
  exact key _ xs ys rfl

/-- The prefix list always starts with the empty prefix. -/
theorem initsL_eq_cons (xs : JsStr) : initsL xs = [] :: (initsL xs).tail := by
  cases xs <;> rfl

/-- The entry of index the full length in a map over the prefixes is the
value at the whole string. -/
theorem initsL_map_getD (d : Nat) :
    ∀ (a : JsStr) (f : JsStr → Nat), ((initsL a).map f).getD a.length d = f a := by
  intro a
  induction a with
  | nil => intro f; rfl
  | cons x xs ih =>
    intro f
    show ((initsL (x :: xs)).map f).getD (xs.length + 1) d = f (x :: xs)
    simp only [initsL, List.map_cons, List.map_map, List.getD_cons_succ]
    exact ih fun q => f (x :: q)

/-- Lengths of the prefixes are the range of indices. -/
theorem initsL_map_length : ∀ (a : JsStr),
    (initsL a).map List.length = List.range (a.length + 1) := by
  intro a
  induction a with
  | nil => rfl
  | cons x xs ih =>
    show (initsL (x :: xs)).map List.length = List.range (xs.length + 1 + 1)
    rw [List.range_succ_eq_map]
    simp only [initsL, List.map_cons, List.map_map]
    congr 1
    rw [← ih]
    simp [Function.comp, Nat.succ_eq_add_one]

/-- One inner sweep of the matrix computes the next-row entries: with
the previous row holding the distances of the column prefixes against
the reversed consumed part rb of str2, the sweep for the next character
c yields the distances against c :: rb.  The parameter rp is the
reversed consumed part of str1, rem the remaining columns. -/
theorem levLoop_spec (c : Char) (rb : JsStr) : ∀ (rem rp : JsStr),
    levLoop c rem ((initsL rem).map fun q => levRec (q.reverse ++ rp) rb)
      (levRec rp (c :: rb))
    = ((initsL rem).tail).map fun q => levRec (q.reverse ++ rp) (c :: rb) := by
  intro rem
  induction rem with
  | nil => intro rp; rfl
  | cons x xs ih =>
    intro rp
    have hrow : (initsL (x :: xs)).map (fun q => levRec (q.reverse ++ rp) rb)
        = levRec rp rb :: (initsL xs).map fun q => levRec (q.reverse ++ (x :: rp)) rb := by
      simp only [initsL, List.map_cons, List.map_map]
      simp [Function.comp, List.reverse_cons, List.append_assoc]
    rw [hrow]
    simp only [levLoop, List.headD_cons, List.tail_cons]
    have hup : ((initsL xs).map fun q => levRec (q.reverse ++ (x :: rp)) rb).headD 0
        = levRec (x :: rp) rb := by
      rw [initsL_eq_cons xs]
      simp
    rw [hup]
    have hv : (if c = x then levRec rp rb
        else 1 + min (levRec rp rb) (min (levRec rp (c :: rb)) (levRec (x :: rp) rb)))
        = levRec (x :: rp) (c :: rb) := by
      rw [levRec_cons_cons]
      by_cases h : x = c
      · subst h
        simp
      · rw [if_neg h, if_neg fun hh => h hh.symm]
    rw [hv, ih (x :: rp)]
    simp only [initsL, List.tail_cons, List.map_map]
    rw [initsL_eq_cons xs]
    simp only [List.map_cons, List.tail_cons]
    congr 1
    simp [Function.comp_def, List.reverse_cons, List.append_assoc]

/-- The outer loop advances the row invariant over the remaining
characters of str2: rb is the reversed consumed part. -/
theorem levRows_spec (a : JsStr) : ∀ (rest rb : JsStr),
    levRows a rest (rb.length + 1) ((initsL a).map fun q => levRec q.reverse rb)
    = (initsL a).map fun q => levRec q.reverse (rest.reverse ++ rb) := by
  intro rest
  induction rest with
  | nil =>
    intro rb
    simp [levRows]
  | cons c cs ih =>
    intro rb
    simp only [levRows]
    have hloop := levLoop_spec c rb a []
    rw [levRec_nil_left] at hloop
    simp only [List.length_cons] at hloop
    have hstart : (initsL a).map (fun q => levRec (q.reverse ++ []) rb)
        = (initsL a).map fun q => levRec q.reverse rb := by
      simp
    rw [hstart] at hloop
    rw [hloop]
    have hrow2 : ((rb.length + 1) :: ((initsL a).tail).map fun q =>
          levRec (q.reverse ++ []) (c :: rb))
        = (initsL a).map fun q => levRec q.reverse (c :: rb) := by
      conv_rhs => rw [initsL_eq_cons a]
      simp only [List.map_cons]
      congr 1
      · rw [List.reverse_nil, levRec_nil_left]
        simp
      · simp
    rw [hrow2]
    have hih := ih (c :: rb)
    simp only [List.length_cons] at hih
    rw [hih]
    simp [List.reverse_cons, List.append_assoc]

/-- The dynamic-programming table of smartImport.ts computes the
Levenshtein distance. -/
theorem levenshteinDistance_eq (a b : JsStr) :
    levenshteinDistance a b = levenshtein a b := by
  unfold levenshteinDistance levenshtein
  have hrow0 : (List.range (a.length + 1))
      = (initsL a).map fun q => levRec q.reverse [] := by
    rw [← initsL_map_length a]
    apply List.map_congr_left
    intro q hq
    rw [levRec_nil_right]
    simp
  rw [hrow0]
  have := levRows_spec a b []
  simp only [List.length_nil, List.append_nil, Nat.zero_add] at this
  rw [this]
  exact initsL_map_getD 0 a fun q => levRec q.reverse b.reverse

/-- The Levenshtein distance is symmetric. -/
theorem levenshtein_symm (a b : JsStr) : levenshtein a b = levenshtein b a :=
  levRec_symm a.reverse b.reverse

/-- The similarity computed by the source equals the normalised edit
distance of the specification. -/
theorem calculateStringSimilarity_eq (a b : JsStr) :
    calculateStringSimilarity a b = specSimilarity a b := by
  have key : ∀ L d : ℕ, ¬ L = 0 → ((L : ℚ) - (d : ℚ)) / (L : ℚ) = 1 - (d : ℚ) / (L : ℚ) := by
    intro L d hL
    rw [sub_div, div_self]
    exact_mod_cast hL
  unfold calculateStringSimilarity specSimilarity
  by_cases h1 : a.length > b.length
  · have hL : ¬ a.length = 0 := by omega
    have hne : ¬ (a.length = 0 ∧ b.length = 0) := by omega
    have hmax : max a.length b.length = a.length := by omega
    simp only [if_pos h1, if_neg hL, if_neg hne, hmax]
    rw [levenshteinDistance_eq]
    exact key a.length (levenshtein a b) hL
  · by_cases h0 : b.length = 0
    · have ha0 : a.length = 0 := by omega
      simp [if_neg h1, h0, ha0]
    · have hne : ¬ (a.length = 0 ∧ b.length = 0) := by omega
      have hmax : max a.length b.length = b.length := by omega
      simp only [if_neg h1, if_neg h0, if_neg hne, hmax]
      rw [levenshteinDistance_eq]
      have hsymm : levenshtein b a = levenshtein a b := levRec_symm b.reverse a.reverse
      rw [hsymm]
      exact key b.length (levenshtein a b) h0

/-- Helper: one step of the duplicate scan, as an unfolding to a
disjunction. -/
theorem checkForDuplicates_cons (getTime : JsStr → ℚ) (t : ParsedTransaction)
    (e : Transaction) (rest : List Transaction) :
    checkForDuplicates getTime t (e :: rest) = true ↔
      (duplicateMatch getTime t e ∨ checkForDuplicates getTime t rest = true) := by
  simp only [checkForDuplicates]
  split_ifs with hd ha hs <;>
    simp_all [duplicateMatch, ← calculateStringSimilarity_eq]

/-- Claim C1: the duplicate scan returns true exactly when some existing
record lies within three days of the candidate (dates through the
environment date-parsing function), has an amount within one hundredth
of the candidate magnitude (the candidate's amount enters through its
absolute value), and has a case-insensitive description similarity, one
minus the Levenshtein distance over the longer length with two empty
strings counting as one, above four fifths; the scan is a first-match
fold, so its truth is exactly this existence. -/
theorem checkForDuplicates_iff_C1 (getTime : JsStr → ℚ) (t : ParsedTransaction)
    (l : List Transaction) :
    checkForDuplicates getTime t l = true ↔ ∃ e ∈ l, duplicateMatch getTime t e := by
  induction l with
  | nil => simp [checkForDuplicates]
  | cons e rest ih =>
    rw [checkForDuplicates_cons, ih]
    simp [List.mem_cons, or_and_right, exists_or]

/-- Claim C10: the duplicate verdict of a candidate depends on its
amount only through the absolute value, so a negative amount gives the
verdict of the corresponding positive amount. -/
theorem checkForDuplicates_abs_amount_C10 (getTime : JsStr → ℚ)
    (t : ParsedTransaction) (l : List Transaction) (a : ℚ) :
    checkForDuplicates getTime { t with amount := a } l =
      checkForDuplicates getTime { t with amount := |a| } l := by
  induction l with
  | nil => rfl
  | cons e rest ih =>
    simp only [checkForDuplicates, abs_abs, ih]

/-- Helper: processRow skips exactly for a missing amount source, an
empty date or an empty description. -/
theorem processRow_none_iff (ex : List Transaction) (uuid : ImportedRow → JsStr)
    (fb : JsStr → Option JsStr) (gt : JsStr → ℚ) (nts : ℚ → JsStr)
    (m : ColumnMapping) (row : ImportedRow) :
    processRow ex uuid fb gt nts m row = none ↔
      (amountSource m row = none ∨ rowStr row m.dateColumn = [] ∨
       rowStr row m.descriptionColumn = []) := by
  unfold processRow
  cases h : amountSource m row with
  | none => simp
  | some p =>
    obtain ⟨a, d⟩ := p
    simp only
    by_cases hde : rowStr row m.dateColumn = [] ∨ rowStr row m.descriptionColumn = []
    · rw [if_pos hde]
      simp [hde]
    · rw [if_neg hde]
      constructor
      · intro hcontra
        repeat' split at hcontra
        all_goals simp at hcontra
      · rintro (hc | hc | hc)
        · simp at hc
        · exact absurd (Or.inl hc) hde
        · exact absurd (Or.inr hc) hde

/-- Helper: characterisation of a missing amount source under the two
mapping kinds. -/
theorem amountSource_none_iff (m : ColumnMapping) (row : ImportedRow)
    (hm : (¬ m.debitColumn = [] ∧ ¬ m.creditColumn = []) ∨ ¬ m.amountColumn = []) :
    (amountSource m row = none ↔
      (if ¬ m.debitColumn = [] ∧ ¬ m.creditColumn = [] then
        debitCreditUnusable (rowStr row m.debitColumn) ∧
        debitCreditUnusable (rowStr row m.creditColumn)
      else rowStr row m.amountColumn = [])) := by
  unfold amountSource debitCreditUnusable
  by_cases hdc : ¬ m.debitColumn = [] ∧ ¬ m.creditColumn = []
  · rw [if_pos hdc, if_pos hdc]
    by_cases hdeb : ¬ jsTrim (rowStr row m.debitColumn) = []
        ∧ ¬ jsTrim (rowStr row m.debitColumn) = strL "0"
        ∧ ¬ jsTrim (rowStr row m.debitColumn) = strL "0.00"
    · rw [if_pos hdeb]
      constructor
      · intro h
        simp at h
      · rintro ⟨hd, -⟩
        exact absurd hd (by tauto)
    · rw [if_neg hdeb]
      by_cases hcred : ¬ jsTrim (rowStr row m.creditColumn) = []
          ∧ ¬ jsTrim (rowStr row m.creditColumn) = strL "0"
          ∧ ¬ jsTrim (rowStr row m.creditColumn) = strL "0.00"
      · rw [if_pos hcred]
        constructor
        · intro h
          simp at h
        · rintro ⟨-, hc⟩
          exact absurd hc (by tauto)
      · rw [if_neg hcred]
        constructor
        · intro _
          constructor <;> tauto
        · intro _
          rfl
  · rw [if_neg hdc, if_neg hdc]
    have ham : ¬ m.amountColumn = [] := by tauto
    rw [if_pos ham]
    by_cases hempty : rowStr row m.amountColumn = []
    · rw [if_pos hempty]
      simp [hempty]
    · rw [if_neg hempty]
      simp [hempty]

/-- Claim C3: the loop emits one candidate per row - it is exactly the
per-row filterMap of processRow - and a row is skipped exactly when its
raw date or raw description is empty or the amount source is unusable:
both debit and credit cells blank or literal zero under a debit/credit
mapping, the single amount cell blank under an amount-column mapping.
A nonempty amount cell of garbage text is not skipped: it parses to 0
and the row is emitted. -/
theorem processImportedTransactions_skip_C3
    (ex : List Transaction) (uuid : ImportedRow → JsStr)
    (fb : JsStr → Option JsStr) (gt : JsStr → ℚ) (nts : ℚ → JsStr)
    (m : ColumnMapping) (rows : List ImportedRow) (row : ImportedRow)
    (hm : (¬ m.debitColumn = [] ∧ ¬ m.creditColumn = []) ∨ ¬ m.amountColumn = []) :
    processImportedTransactions ex uuid fb gt nts rows m
      = rows.filterMap (processRow ex uuid fb gt nts m)
    ∧ (processRow ex uuid fb gt nts m row = none ↔ specRowSkipped m row) := by
  refine ⟨rfl, ?_⟩
  rw [processRow_none_iff, amountSource_none_iff m row hm]
  unfold specRowSkipped
  tauto

/-- Witness for claim C3: the theorem applied to an amount-column
mapping and the empty row, which is skipped for its blank amount cell. -/
theorem processImportedTransactions_skip_C3_witness :
    ((¬ (⟨strL "Date", strL "Description", strL "Amount", [], [], [], []⟩
          : ColumnMapping).debitColumn = [] ∧
      ¬ (⟨strL "Date", strL "Description", strL "Amount", [], [], [], []⟩
          : ColumnMapping).creditColumn = []) ∨
     ¬ (⟨strL "Date", strL "Description", strL "Amount", [], [], [], []⟩
          : ColumnMapping).amountColumn = []) ∧
    (processImportedTransactions [] (fun _ => []) (fun _ => none) (fun _ => 0)
        (fun _ => []) []
        ⟨strL "Date", strL "Description", strL "Amount", [], [], [], []⟩
      = ([] : List ImportedRow).filterMap
          (processRow [] (fun _ => []) (fun _ => none) (fun _ => 0) (fun _ => [])
            ⟨strL "Date", strL "Description", strL "Amount", [], [], [], []⟩)
     ∧ (processRow [] (fun _ => []) (fun _ => none) (fun _ => 0) (fun _ => [])
          ⟨strL "Date", strL "Description", strL "Amount", [], [], [], []⟩ [] = none
        ↔ specRowSkipped
            ⟨strL "Date", strL "Description", strL "Amount", [], [], [], []⟩ [])) :=
  ⟨Or.inr (by decide),
   processImportedTransactions_skip_C3 [] (fun _ => []) (fun _ => none) (fun _ => 0)
     (fun _ => [])
     ⟨strL "Date", strL "Description", strL "Amount", [], [], [], []⟩ [] []
     (Or.inr (by decide))⟩

/-- Helper: every transaction a processed row emits carries the absolute
value of its parsed amount. -/
theorem processRow_amount_nonneg (ex : List Transaction) (uuid : ImportedRow → JsStr)
    (fb : JsStr → Option JsStr) (gt : JsStr → ℚ) (nts : ℚ → JsStr)
    (m : ColumnMapping) (row : ImportedRow) (t : ParsedTransaction)
    (h : processRow ex uuid fb gt nts m row = some t) : 0 ≤ t.amount := by
  revert h
  unfold processRow
  cases ha : amountSource m row with
  | none =>
    intro h
    simp at h
  | some p =>
    obtain ⟨a, d⟩ := p
    simp only
    intro h
    by_cases hde : rowStr row m.dateColumn = [] ∨ rowStr row m.descriptionColumn = []
    · rw [if_pos hde] at h
      simp at h
    · rw [if_neg hde] at h
      repeat' split at h
      all_goals
        injection h with h2
        subst h2
        simpa using abs_nonneg a

/-- Claim C8: every candidate transaction produced by the import loop
has a non-negative amount field, for every environment, row list and
column mapping; the sign of the source value is consumed by the
debit flag that feeds the income/expense type only. -/
theorem processImportedTransactions_nonneg_C8
    (ex : List Transaction) (uuid : ImportedRow → JsStr)
    (fb : JsStr → Option JsStr) (gt : JsStr → ℚ) (nts : ℚ → JsStr)
    (rows : List ImportedRow) (m : ColumnMapping) :
    ListAll (fun t => 0 ≤ t.amount)
      (processImportedTransactions ex uuid fb gt nts rows m) := by
  unfold processImportedTransactions
  induction rows with
  | nil => trivial
  | cons r rs ih =>
    rw [List.filterMap_cons]
    cases h : processRow ex uuid fb gt nts m r with
    | none => exact ih
    | some t => exact ⟨processRow_amount_nonneg ex uuid fb gt nts m r t h, ih⟩

/-- ListAll is pointwise membership. -/
theorem listAll_iff {α : Type _} (p : α → Prop) (l : List α) : ListAll p l ↔ ∀ x ∈ l, p x := by
  induction l with
  | nil => simp [ListAll]
  | cons x xs ih => simp [ListAll, ih]

/-- Char.ofNat below the surrogate range keeps the code point. -/
theorem toNat_ofNat_small (n : Nat) (h : n < 55296) : (Char.ofNat n).toNat = n := by
  unfold Char.ofNat
  rw [dif_pos (Or.inl h)]
  rfl

/-- Lowercasing never yields an uppercase ASCII letter. -/
theorem jsToLowerChar_not_upper (c : Char) :
    ¬ (65 ≤ (jsToLowerChar c).toNat ∧ (jsToLowerChar c).toNat ≤ 90) := by
  unfold jsToLowerChar
  split
  · next h => rw [toNat_ofNat_small _ (by omega)]; omega
  · next h => exact h

/-- Lowercasing fixes every character that is not an uppercase ASCII
letter. -/
theorem jsToLowerChar_eq_self (c : Char) (h : ¬ (65 ≤ c.toNat ∧ c.toNat ≤ 90)) :
    jsToLowerChar c = c := by
  unfold jsToLowerChar
  rw [if_neg h]

/-- Unfolding: collapse of the empty string. -/
theorem collapseWsGo_nil (b : Bool) : collapseWsGo b [] = [] := rfl

/-- Unfolding: a whitespace character inside a run is dropped. -/
theorem collapseWsGo_cons_space_true (x : Char) (xs : JsStr) (hx : isJsSpace x = true) :
    collapseWsGo true (x :: xs) = collapseWsGo true xs := by
  conv_lhs => rw [collapseWsGo]
  rw [if_pos hx, if_pos rfl]

/-- Unfolding: a whitespace character opening a run emits one space. -/
theorem collapseWsGo_cons_space_false (x : Char) (xs : JsStr) (hx : isJsSpace x = true) :
    collapseWsGo false (x :: xs) = ' ' :: collapseWsGo true xs := by
  conv_lhs => rw [collapseWsGo]
  rw [if_pos hx, if_neg (by simp)]

/-- Unfolding: a non-whitespace character is kept and closes any run. -/
theorem collapseWsGo_cons_nospace (b : Bool) (x : Char) (xs : JsStr)
    (hx : isJsSpace x = false) : collapseWsGo b (x :: xs) = x :: collapseWsGo false xs := by
  conv_lhs => rw [collapseWsGo]
  rw [if_neg (by simp [hx])]

/-- Every character the whitespace collapse emits is either the plain
space or a non-whitespace character of the input. -/
theorem collapseWsGo_mem (s : JsStr) : ∀ (b : Bool) (c : Char), c ∈ collapseWsGo b s →
    c = ' ' ∨ (c ∈ s ∧ isJsSpace c = false) := by
  induction s with
  | nil => intro b c h; simp [collapseWsGo_nil] at h
  | cons x xs ih =>
    intro b c h
    by_cases hx : isJsSpace x
    · cases b with
      | true =>
        rw [collapseWsGo_cons_space_true x xs hx] at h
        rcases ih true c h with h1 | ⟨h2, h3⟩
        · exact Or.inl h1
        · exact Or.inr ⟨List.mem_cons_of_mem _ h2, h3⟩
      | false =>
        rw [collapseWsGo_cons_space_false x xs hx] at h
        rcases List.mem_cons.mp h with h1 | h1
        · exact Or.inl h1
        · rcases ih true c h1 with h2 | ⟨h2, h3⟩
          · exact Or.inl h2
          · exact Or.inr ⟨List.mem_cons_of_mem _ h2, h3⟩
    · have hx' : isJsSpace x = false := by simpa using hx
      rw [collapseWsGo_cons_nospace b x xs hx'] at h
      rcases List.mem_cons.mp h with h1 | h1
      · subst h1; exact Or.inr ⟨List.mem_cons_self _ _, hx'⟩
      · rcases ih false c h1 with h2 | ⟨h2, h3⟩
        · exact Or.inl h2
        · exact Or.inr ⟨List.mem_cons_of_mem _ h2, h3⟩

/-- The whitespace collapse never emits two adjacent whitespace
characters, and starting inside a run it opens with a non-whitespace
character. -/
theorem collapseWsGo_chain (s : JsStr) : ∀ (b : Bool),
    noSpaceRun (collapseWsGo b s) ∧
    (b = true → ∀ c, (collapseWsGo b s).head? = some c → isJsSpace c = false) := by
  induction s with
  | nil =>
    intro b
    refine ⟨by simp [collapseWsGo_nil, noSpaceRun], ?_⟩
    intro _ c hc
    simp [collapseWsGo_nil] at hc
  | cons x xs ih =>
    intro b
    by_cases hx : isJsSpace x
    · cases b with
      | true => rw [collapseWsGo_cons_space_true x xs hx]; exact ih true
      | false =>
        rw [collapseWsGo_cons_space_false x xs hx]
        constructor
        · rw [noSpaceRun, List.chain'_cons']
          refine ⟨?_, (ih true).1⟩
          intro y hy hcon
          have hns := (ih true).2 rfl y (Option.mem_def.mp hy)
          rw [hns] at hcon
          exact Bool.false_ne_true hcon.2
        · intro hb; exact absurd hb (by simp)
    · have hx' : isJsSpace x = false := by simpa using hx
      rw [collapseWsGo_cons_nospace b x xs hx']
      constructor
      · rw [noSpaceRun, List.chain'_cons']
        refine ⟨?_, (ih false).1⟩
        intro y hy hcon
        rw [hx'] at hcon
        exact Bool.false_ne_true hcon.1
      · intro _ c hc
        simp only [List.head?_cons, Option.some.injEq] at hc
        subst hc
        exact hx'

/-- The head survivor of dropWhile fails the predicate. -/
theorem head_dropWhile_false (p : Char → Bool) (l : JsStr) : ∀ (c : Char),
    (l.dropWhile p).head? = some c → p c = false := by
  induction l with
  | nil => intro c hc; simp at hc
  | cons x xs ih =>
    intro c hc
    rw [List.dropWhile_cons] at hc
    split at hc
    · exact ih c hc
    · next h =>
      simp only [List.head?_cons, Option.some.injEq] at hc
      subst hc
      simpa using h

/-- The first character of a trimmed string is not whitespace. -/
theorem jsTrim_head (s : JsStr) (c : Char) (h : (jsTrim s).head? = some c) :
    isJsSpace c = false := by
  unfold jsTrim at h
  rw [List.head?_reverse] at h
  obtain ⟨t, ht⟩ := List.dropWhile_suffix (l := (s.dropWhile isJsSpace).reverse) isJsSpace
  have hR : (s.dropWhile isJsSpace).reverse.getLast? = some c := by
    rw [← ht, List.getLast?_append, h]
    rfl
  rw [List.getLast?_reverse] at hR
  exact head_dropWhile_false isJsSpace s c hR

/-- The last character of a trimmed string is not whitespace. -/
theorem jsTrim_last (s : JsStr) (c : Char) (h : (jsTrim s).getLast? = some c) :
    isJsSpace c = false := by
  unfold jsTrim at h
  rw [List.getLast?_reverse] at h
  exact head_dropWhile_false isJsSpace _ c h

/-- Trimming keeps a sublist of the characters. -/
theorem jsTrim_mem (s : JsStr) (c : Char) (h : c ∈ jsTrim s) : c ∈ s := by
  unfold jsTrim at h
  rw [List.mem_reverse] at h
  have h1 := (List.dropWhile_suffix (l := (s.dropWhile isJsSpace).reverse) isJsSpace).subset h
  rw [List.mem_reverse] at h1
  exact (List.dropWhile_suffix isJsSpace).subset h1

/-- Reversal preserves the no-adjacent-whitespace invariant. -/
theorem noSpaceRun_reverse (s : JsStr) (h : noSpaceRun s) : noSpaceRun s.reverse := by
  unfold noSpaceRun at *
  rw [List.chain'_reverse]
  exact h.imp fun _ _ hab hc => hab ⟨hc.2, hc.1⟩

/-- Trimming preserves the no-adjacent-whitespace invariant. -/
theorem jsTrim_chain (s : JsStr) (h : noSpaceRun s) : noSpaceRun (jsTrim s) := by
  unfold jsTrim
  exact noSpaceRun_reverse _
    (List.Chain'.suffix
      (noSpaceRun_reverse _ (List.Chain'.suffix h (List.dropWhile_suffix _)))
      (List.dropWhile_suffix _))

/-- A canonical character is not an uppercase ASCII letter. -/
theorem isCanonChar_not_upper (c : Char) (h : isCanonChar c) :
    ¬ (65 ≤ c.toNat ∧ c.toNat ≤ 90) := by
  rcases h with h | h | h
  · omega
  · omega
  · subst h; decide

/-- A canonical character is not a digit. -/
theorem isCanonChar_not_digit (c : Char) (h : isCanonChar c) : ¬ jsIsDigit c = true := by
  unfold jsIsDigit
  simp only [decide_eq_true_eq]
  rcases h with h | h | h
  · omega
  · omega
  · subst h; decide

/-- A canonical character lies in the word or whitespace class. -/
theorem isCanonChar_word_or_space (c : Char) (h : isCanonChar c) :
    isWordChar c = true ∨ isJsSpace c = true := by
  rcases h with h | h | h
  · left; unfold isWordChar; simp only [decide_eq_true_eq]; tauto
  · left; unfold isWordChar; simp only [decide_eq_true_eq]; tauto
  · right; subst h; decide

/-- The only whitespace among the canonical characters is the plain
space. -/
theorem isCanonChar_space (c : Char) (h : isCanonChar c) (hs : isJsSpace c = true) :
    c = ' ' := by
  unfold isJsSpace at hs
  simp only [decide_eq_true_eq] at hs
  rcases h with h | h | h
  · omega
  · omega
  · exact h

/-- A canonical character is not whitespace unless it is the plain
space. -/
theorem isCanonChar_nospace (c : Char) (h : isCanonChar c) (hne : ¬ c = ' ') :
    isJsSpace c = false := by
  rcases Bool.eq_false_or_eq_true (isJsSpace c) with h1 | h1
  · exact absurd (isCanonChar_space c h h1) hne
  · exact h1

/-- Lowercasing fixes a canonical string. -/
theorem jsToLower_fix : ∀ (n : JsStr), (∀ c ∈ n, isCanonChar c) → jsToLower n = n := by
  intro n
  induction n with
  | nil => intro _; rfl
  | cons x xs ih =>
    intro h
    unfold jsToLower at *
    rw [List.map_cons,
      jsToLowerChar_eq_self x (isCanonChar_not_upper x (h x (List.mem_cons_self _ _))),
      ih (fun c hc => h c (List.mem_cons_of_mem _ hc))]

/-- Every character of a normalized description is canonical. -/
theorem normalizeDescription_mem (d : JsStr) :
    ∀ c ∈ normalizeDescription d, isCanonChar c := by
  intro c hc
  unfold normalizeDescription at hc
  have h1 := jsTrim_mem _ c hc
  rcases collapseWsGo_mem _ false c h1 with h2 | ⟨h2, h3⟩
  · exact Or.inr (Or.inr h2)
  · rw [List.mem_filter] at h2
    obtain ⟨h4, h5⟩ := h2
    rw [List.mem_filter] at h4
    obtain ⟨h6, h7⟩ := h4
    rcases List.mem_map.mp h6 with ⟨c₀, _, hc₀⟩
    have hup := jsToLowerChar_not_upper c₀
    rw [hc₀] at hup
    simp only [decide_eq_true_eq] at h5 h7
    rcases h5 with h5 | h5
    · unfold isWordChar at h5
      simp only [decide_eq_true_eq] at h5
      unfold jsIsDigit at h7
      simp only [decide_eq_true_eq] at h7
      unfold isCanonChar
      rcases h5 with h5 | h5 | h5 | h5
      · exact absurd h5 hup
      · exact Or.inl h5
      · exact absurd h5 h7
      · exact Or.inr (Or.inl h5)
    · rw [h5] at h3
      exact absurd h3 (by simp)

/-- A normalized description has no two adjacent whitespace
characters. -/
theorem normalizeDescription_chain (d : JsStr) : noSpaceRun (normalizeDescription d) := by
  unfold normalizeDescription collapseWs
  exact jsTrim_chain _ ((collapseWsGo_chain _ false).1)

/-- A normalized description does not start with whitespace. -/
theorem normalizeDescription_head (d : JsStr) (c : Char)
    (h : (normalizeDescription d).head? = some c) : isJsSpace c = false := by
  unfold normalizeDescription at h
  exact jsTrim_head _ c h

/-- A normalized description does not end with whitespace. -/
theorem normalizeDescription_last (d : JsStr) (c : Char)
    (h : (normalizeDescription d).getLast? = some c) : isJsSpace c = false := by
  unfold normalizeDescription at h
  exact jsTrim_last _ c h

/-- Trimming fixes a string with non-whitespace ends. -/
theorem jsTrim_eq_self (s : JsStr)
    (h1 : ∀ c, s.head? = some c → isJsSpace c = false)
    (h2 : ∀ c, s.getLast? = some c → isJsSpace c = false) : jsTrim s = s := by
  cases s with
  | nil => rfl
  | cons x xs =>
    have hx := h1 x rfl
    rcases hrev : (x :: xs).reverse with _ | ⟨d, ds⟩
    · exact absurd hrev (by simp)
    · have hd : isJsSpace d = false := by
        apply h2
        rw [← List.head?_reverse, hrev]
        rfl
      have := jsTrim_append (x :: xs) [] ⟨x, xs, rfl, hx⟩ ⟨d, ds, hrev, hd⟩
      simpa using this

/-- Collapsing commutes with appending after a canonical prefix with a
non-whitespace last character. -/
theorem collapseWsGo_append (rest : JsStr) : ∀ (n : JsStr) (b : Bool),
    (∀ c ∈ n, isCanonChar c) → noSpaceRun n →
    (b = true → ∃ c cs, n = c :: cs ∧ isJsSpace c = false) →
    (∀ c, n.getLast? = some c → isJsSpace c = false) →
    collapseWsGo b (n ++ rest) = n ++ collapseWsGo false rest := by
  intro n
  induction n with
  | nil =>
    intro b _ _ hb _
    cases b with
    | false => simp
    | true =>
      obtain ⟨c, cs, hc, _⟩ := hb rfl
      exact absurd hc (by simp)
  | cons x xs ih =>
    intro b hcanon hchain hb hlast
    unfold noSpaceRun at hchain
    by_cases hx : isJsSpace x
    · have hxc : x = ' ' := isCanonChar_space x (hcanon x (List.mem_cons_self _ _)) hx
      cases b with
      | true =>
        obtain ⟨c, cs, hceq, hcns⟩ := hb rfl
        cases hceq
        exact absurd hx (by simp [hcns])
      | false =>
        cases xs with
        | nil => exact absurd (hlast x rfl) (by simp [hx])
        | cons y ys =>
          rw [List.cons_append, collapseWsGo_cons_space_false x _ hx, hxc]
          congr 1
          apply ih true
            (fun c hc => hcanon c (List.mem_cons_of_mem _ hc))
            ((List.chain'_cons'.mp hchain).2)
          · intro _
            refine ⟨y, ys, rfl, ?_⟩
            have hny := (List.chain'_cons'.mp hchain).1 y rfl
            rcases Bool.eq_false_or_eq_true (isJsSpace y) with h1 | h1
            · exact absurd ⟨hx, h1⟩ hny
            · exact h1
          · intro c hc
            exact hlast c (by rw [List.getLast?_cons_cons]; exact hc)
    · have hx' : isJsSpace x = false := by simpa using hx
      rw [List.cons_append, collapseWsGo_cons_nospace b x _ hx']
      congr 1
      cases xs with
      | nil => simp
      | cons y ys =>
        apply ih false
          (fun c hc => hcanon c (List.mem_cons_of_mem _ hc))
          ((List.chain'_cons'.mp hchain).2)
          (fun h => absurd h (by simp))
        intro c hc
        exact hlast c (by rw [List.getLast?_cons_cons]; exact hc)

/-- A pointwise-true filter fixes a canonical string: no digits. -/
theorem filter_nodigit_fix (n : JsStr) (h : ∀ c ∈ n, isCanonChar c) :
    (n.filter fun c => ¬ jsIsDigit c = true) = n :=
  List.filter_eq_self.mpr fun a ha => decide_eq_true (isCanonChar_not_digit a (h a ha))

/-- A pointwise-true filter fixes a canonical string: word or
whitespace class. -/
theorem filter_wordspace_fix (n : JsStr) (h : ∀ c ∈ n, isCanonChar c) :
    (n.filter fun c => isWordChar c = true ∨ isJsSpace c = true) = n :=
  List.filter_eq_self.mpr fun a ha => decide_eq_true (isCanonChar_word_or_space a (h a ha))

/-- Normalizing a canonical description with the duplicate display
suffix appended lowercases the suffix and drops its parentheses. -/
theorem normalizeDescription_append_dup (n : JsStr)
    (hcanon : ∀ c ∈ n, isCanonChar c) (hchain : noSpaceRun n)
    (hhead : ∀ c, n.head? = some c → isJsSpace c = false)
    (hlast : ∀ c, n.getLast? = some c → isJsSpace c = false)
    (hne : ¬ n = []) :
    normalizeDescription (n ++ strL " (Duplicates)") = n ++ strL " duplicates" := by
  unfold normalizeDescription
  have h1 : jsToLower (n ++ strL " (Duplicates)") = n ++ strL " (duplicates)" := by
    unfold jsToLower
    rw [List.map_append]
    have hn := jsToLower_fix n hcanon
    unfold jsToLower at hn
    rw [hn]
    congr 1
  rw [h1, List.filter_append, filter_nodigit_fix n hcanon,
    show ((strL " (duplicates)").filter fun c => ¬ jsIsDigit c = true) =
      strL " (duplicates)" from by decide,
    List.filter_append, filter_wordspace_fix n hcanon,
    show ((strL " (duplicates)").filter fun c => isWordChar c = true ∨ isJsSpace c = true) =
      strL " duplicates" from by decide]
  unfold collapseWs
  rw [collapseWsGo_append (strL " duplicates") n false hcanon hchain
    (fun h => absurd h (by simp)) hlast,
    show collapseWsGo false (strL " duplicates") = strL " duplicates" from by decide]
  apply jsTrim_eq_self
  · intro c hc
    rw [List.head?_append_of_ne_nil n hne] at hc
    exact hhead c hc
  · intro c hc
    rw [List.getLast?_append,
      show (strL " duplicates").getLast?.or n.getLast? = some 's' from rfl] at hc
    injection hc with hc
    rw [← hc]
    decide

/-- The duplicate marker is not a prefix of a string without uppercase
letters. -/
theorem pat_not_prefixOf (s : JsStr)
    (hs : ∀ c ∈ s, ¬ (65 ≤ c.toNat ∧ c.toNat ≤ 90)) :
    (strL "__DUPLICATE").isPrefixOf s = false := by
  cases h : (strL "__DUPLICATE").isPrefixOf s with
  | false => rfl
  | true =>
    exfalso
    obtain ⟨t, ht⟩ := List.isPrefixOf_iff_prefix.mp h
    have hD : 'D' ∈ s := by
      rw [← ht]
      exact List.mem_append.mpr (Or.inl (by decide))
    exact hs 'D' hD (by decide)

/-- A string without uppercase letters never contains the duplicate
marker. -/
theorem strIncludes_pat_false : ∀ (s : JsStr),
    (∀ c ∈ s, ¬ (65 ≤ c.toNat ∧ c.toNat ≤ 90)) →
    strIncludes s (strL "__DUPLICATE") = false := by
  intro s
  induction s with
  | nil => intro _; rfl
  | cons x xs ih =>
    intro h
    unfold strIncludes
    rw [pat_not_prefixOf _ h, ih (fun c hc => h c (List.mem_cons_of_mem _ hc))]
    rfl

/-- A string ending in the duplicate marker contains it. -/
theorem strIncludes_append_pat : ∀ (n : JsStr),
    strIncludes (n ++ strL "__DUPLICATE") (strL "__DUPLICATE") = true := by
  intro n
  induction n with
  | nil => decide
  | cons x xs ih =>
    rw [List.cons_append]
    unfold strIncludes
    rw [ih]
    simp

/-- The duplicate marker does not occur shifted into the boundary of a
canonical string and the marker. -/
theorem pat_not_prefixOf_mid (m : JsStr) (hm : ¬ m = [])
    (hc : ∀ c ∈ m, isCanonChar c) :
    (strL "__DUPLICATE").isPrefixOf (m ++ strL "__DUPLICATE") = false := by
  cases h : (strL "__DUPLICATE").isPrefixOf (m ++ strL "__DUPLICATE") with
  | false => rfl
  | true =>
    exfalso
    obtain ⟨t, ht⟩ := List.isPrefixOf_iff_prefix.mp h
    have h2 : (strL "__DUPLICATE" ++ t)[2]? = (m ++ strL "__DUPLICATE")[2]? := by rw [ht]
    rw [List.getElem?_append, if_pos (by decide),
      show (strL "__DUPLICATE")[2]? = some 'D' from rfl] at h2
    rcases m with _ | ⟨a, m1⟩
    · exact hm rfl
    rcases m1 with _ | ⟨b, m2⟩
    · rw [show ((a :: ([] : JsStr)) ++ strL "__DUPLICATE")[2]? = some '_' from by simp [strL]] at h2
      exact absurd (Option.some.inj h2) (by decide)
    rcases m2 with _ | ⟨c2, m3⟩
    · rw [show ((a :: b :: ([] : JsStr)) ++ strL "__DUPLICATE")[2]? = some '_' from by simp [strL]] at h2
      exact absurd (Option.some.inj h2) (by decide)
    · rw [show ((a :: b :: c2 :: m3) ++ strL "__DUPLICATE")[2]? = some c2 from by simp] at h2
      have hc2 := hc c2 (by simp)
      rw [← Option.some.inj h2] at hc2
      rcases hc2 with h3 | h3 | h3
      · revert h3; decide
      · revert h3; decide
      · exact absurd h3 (by decide)

/-- Removing the duplicate marker from a canonical string changes
nothing. -/
theorem replaceFirst_pat_none : ∀ (n : JsStr), (∀ c ∈ n, isCanonChar c) →
    replaceFirst (strL "__DUPLICATE") [] n = n := by
  intro n
  induction n with
  | nil => intro _; rfl
  | cons x xs ih =>
    intro h
    unfold replaceFirst
    rw [pat_not_prefixOf (x :: xs) (fun c hc => isCanonChar_not_upper c (h c hc)),
      if_neg (by simp), ih (fun c hc => h c (List.mem_cons_of_mem _ hc))]

/-- Removing the duplicate marker from a canonical string with the
marker appended restores the string. -/
theorem replaceFirst_pat_append : ∀ (n : JsStr), (∀ c ∈ n, isCanonChar c) →
    replaceFirst (strL "__DUPLICATE") [] (n ++ strL "__DUPLICATE") = n := by
  intro n
  induction n with
  | nil => intro _; decide
  | cons x xs ih =>
    intro h
    rw [List.cons_append]
    unfold replaceFirst
    have hp := pat_not_prefixOf_mid (x :: xs) (by simp) h
    rw [List.cons_append] at hp
    rw [hp, if_neg (by simp), ih (fun c hc => h c (List.mem_cons_of_mem _ hc))]

/-- A canonical string never equals a string with the duplicate marker
appended. -/
theorem canon_ne_append_pat (n1 n2 : JsStr) (h2 : ∀ c ∈ n2, isCanonChar c) :
    ¬ (n1 ++ strL "__DUPLICATE" = n2) := by
  intro he
  have hD : 'D' ∈ n2 := by
    rw [← he]
    exact List.mem_append.mpr (Or.inr (by decide))
  rcases h2 'D' hD with h | h | h
  · revert h; decide
  · revert h; decide
  · exact absurd h (by decide)

/-- Inserting a transaction into the group map preserves the invariant
that every member of an entry carries the entry key. -/
theorem addToGroups_key (key : JsStr) (u : ParsedTransaction) :
    ∀ (acc : List (JsStr × List ParsedTransaction)),
    (∀ p ∈ acc, ∀ t ∈ p.2, groupKey t = p.1) → groupKey u = key →
    ∀ p ∈ addToGroups key u acc, ∀ t ∈ p.2, groupKey t = p.1 := by
  intro acc
  induction acc with
  | nil =>
    intro _ hu p hp t ht
    simp [addToGroups] at hp
    subst hp
    simp at ht
    subst ht
    exact hu
  | cons q rest ih =>
    intro hacc hu p hp t ht
    obtain ⟨k, ts⟩ := q
    unfold addToGroups at hp
    split at hp
    · next hk =>
      rcases List.mem_cons.mp hp with h1 | h1
      · subst h1
        rcases List.mem_append.mp ht with h2 | h2
        · exact hacc (k, ts) (List.mem_cons_self _ _) t h2
        · simp at h2
          subst h2
          rw [hu]
          exact hk.symm
      · exact hacc p (List.mem_cons_of_mem _ h1) t ht
    · next hk =>
      rcases List.mem_cons.mp hp with h1 | h1
      · subst h1
        exact hacc (k, ts) (List.mem_cons_self _ _) t ht
      · exact ih (fun q hq => hacc q (List.mem_cons_of_mem _ hq)) hu p h1 t ht

/-- Every member of an entry of the built group map carries the entry
key. -/
theorem buildGroups_key : ∀ (l : List ParsedTransaction)
    (acc : List (JsStr × List ParsedTransaction)),
    (∀ p ∈ acc, ∀ t ∈ p.2, groupKey t = p.1) →
    ∀ p ∈ buildGroups l acc, ∀ t ∈ p.2, groupKey t = p.1 := by
  intro l
  induction l with
  | nil =>
    intro acc hacc
    simpa [buildGroups] using hacc
  | cons x xs ih =>
    intro acc hacc
    rw [show buildGroups (x :: xs) acc =
      buildGroups xs (addToGroups (groupKey x) x acc) from rfl]
    exact ih _ (addToGroups_key (groupKey x) x acc hacc rfl)

/-- Membership after a stable insertion. -/
theorem mem_insSorted (le : TransactionGroup → TransactionGroup → Bool)
    (x : TransactionGroup) : ∀ (l : List TransactionGroup) (y : TransactionGroup),
    y ∈ insSorted le x l ↔ y = x ∨ y ∈ l := by
  intro l
  induction l with
  | nil => intro y; simp [insSorted]
  | cons z zs ih =>
    intro y
    unfold insSorted
    split
    · simp only [List.mem_cons]
    · simp only [List.mem_cons, ih y]
      tauto

/-- Membership after the stable sort. -/
theorem mem_sortStable (le : TransactionGroup → TransactionGroup → Bool) :
    ∀ (l : List TransactionGroup) (y : TransactionGroup),
    y ∈ sortStable le l ↔ y ∈ l := by
  intro l
  induction l with
  | nil => intro y; simp [sortStable]
  | cons z zs ih =>
    intro y
    unfold sortStable
    rw [mem_insSorted, List.mem_cons, ih y]

/-- Stable insertion preserves sortedness for a total transitive
comparator. -/
theorem pairwise_insSorted (le : TransactionGroup → TransactionGroup → Bool)
    (htot : ∀ a b, le a b = true ∨ le b a = true)
    (htrans : ∀ a b c, le a b = true → le b c = true → le a c = true)
    (x : TransactionGroup) :
    ∀ (l : List TransactionGroup), l.Pairwise (fun a b => le a b = true) →
    (insSorted le x l).Pairwise (fun a b => le a b = true) := by
  intro l
  induction l with
  | nil => intro _; simp [insSorted]
  | cons y ys ih =>
    intro hp
    rw [List.pairwise_cons] at hp
    obtain ⟨hy, hys⟩ := hp
    unfold insSorted
    split
    · next hxy =>
      rw [List.pairwise_cons]
      refine ⟨?_, List.pairwise_cons.mpr ⟨hy, hys⟩⟩
      intro z hz
      rcases List.mem_cons.mp hz with h1 | h1
      · subst h1; exact hxy
      · exact htrans x y z hxy (hy z h1)
    · next hxy =>
      have hyx : le y x = true := by
        rcases htot x y with h | h
        · exact absurd h hxy
        · exact h
      rw [List.pairwise_cons]
      constructor
      · intro z hz
        rcases (mem_insSorted le x ys z).mp hz with h1 | h1
        · subst h1; exact hyx
        · exact hy z h1
      · exact ih hys

/-- The stable sort sorts, for a total transitive comparator. -/
theorem pairwise_sortStable (le : TransactionGroup → TransactionGroup → Bool)
    (htot : ∀ a b, le a b = true ∨ le b a = true)
    (htrans : ∀ a b c, le a b = true → le b c = true → le a c = true) :
    ∀ (l : List TransactionGroup),
    (sortStable le l).Pairwise (fun a b => le a b = true) := by
  intro l
  induction l with
  | nil => simp [sortStable]
  | cons x xs ih =>
    unfold sortStable
    exact pairwise_insSorted le htot htrans x _ ih

/-- The group comparator is total. -/
theorem groupLe_total (a b : TransactionGroup) : groupLe a b = true ∨ groupLe b a = true := by
  unfold groupLe
  simp only [decide_eq_true_eq]
  omega

/-- The group comparator is transitive. -/
theorem groupLe_trans (a b c : TransactionGroup) (h1 : groupLe a b = true)
    (h2 : groupLe b c = true) : groupLe a c = true := by
  unfold groupLe at *
  simp only [decide_eq_true_eq] at *
  omega

/-- Core facts about every emitted group: more than one member, a
homogeneous duplicate flag, and the display description computed from
the members' normalized descriptions. -/
theorem groupTransactionsByDescription_facts (txs : List ParsedTransaction)
    (g : TransactionGroup) (hg : g ∈ groupTransactionsByDescription txs) :
    1 < g.transactions.length ∧
    ∀ t ∈ g.transactions,
      (t.isDuplicate = true →
        g.description = normalizeDescription t.description ++ strL " (Duplicates)" ∧
        ∀ u ∈ g.transactions, u.isDuplicate = true) ∧
      (t.isDuplicate = false →
        g.description = normalizeDescription t.description ∧
        ∀ u ∈ g.transactions, u.isDuplicate = false) := by
  simp only [groupTransactionsByDescription] at hg
  have hm := (mem_sortStable groupLe _ g).mp hg
  rcases List.mem_filterMap.mp hm with ⟨p, hp, hfp⟩
  have hkey := buildGroups_key txs [] (by intro q hq; exact absurd hq (List.not_mem_nil q)) p hp
  split at hfp
  case isFalse => exact absurd hfp (by simp)
  case isTrue hlen =>
  injection hfp with hfp
  subst hfp
  refine ⟨hlen, ?_⟩
  intro t ht
  have hkt := hkey t ht
  constructor
  · intro hdup
    unfold groupKey at hkt
    rw [if_pos hdup] at hkt
    have hinc : strIncludes p.1 (strL "__DUPLICATE") = true := by
      rw [← hkt]
      exact strIncludes_append_pat _
    have hrep : replaceFirst (strL "__DUPLICATE") [] p.1 =
        normalizeDescription t.description := by
      rw [← hkt]
      exact replaceFirst_pat_append _ (normalizeDescription_mem t.description)
    constructor
    · show (if strIncludes p.1 (strL "__DUPLICATE") then
          replaceFirst (strL "__DUPLICATE") [] p.1 ++ strL " (Duplicates)"
        else replaceFirst (strL "__DUPLICATE") [] p.1) =
        normalizeDescription t.description ++ strL " (Duplicates)"
      rw [hinc, if_pos rfl, hrep]
    · intro u hu
      have hku := hkey u hu
      unfold groupKey at hku
      cases hud : u.isDuplicate with
      | true => rfl
      | false =>
        rw [if_neg (by simp [hud])] at hku
        exfalso
        apply canon_ne_append_pat (normalizeDescription t.description)
          (normalizeDescription u.description) (normalizeDescription_mem u.description)
        rw [hkt, hku]
  · intro hndup
    unfold groupKey at hkt
    rw [if_neg (by simp [hndup])] at hkt
    have hinc : strIncludes p.1 (strL "__DUPLICATE") = false := by
      rw [← hkt]
      exact strIncludes_pat_false _
        (fun c hc => isCanonChar_not_upper c (normalizeDescription_mem t.description c hc))
    have hrep : replaceFirst (strL "__DUPLICATE") [] p.1 =
        normalizeDescription t.description := by
      rw [← hkt]
      exact replaceFirst_pat_none _ (normalizeDescription_mem t.description)
    constructor
    · show (if strIncludes p.1 (strL "__DUPLICATE") then
          replaceFirst (strL "__DUPLICATE") [] p.1 ++ strL " (Duplicates)"
        else replaceFirst (strL "__DUPLICATE") [] p.1) =
        normalizeDescription t.description
      rw [hinc, if_neg (by simp), hrep]
    · intro u hu
      have hku := hkey u hu
      unfold groupKey at hku
      cases hud : u.isDuplicate with
      | false => rfl
      | true =>
        rw [if_pos hud] at hku
        exfalso
        apply canon_ne_append_pat (normalizeDescription u.description)
          (normalizeDescription t.description) (normalizeDescription_mem t.description)
        rw [hku, hkt]

/-- Claim C7: every emitted group has more than one member (singleton
keys are omitted), carries a homogeneous duplicate flag - so
duplicate-flagged and non-duplicate transactions sharing a normalized
description land in separate groups - with the duplicate groups'
display descriptions carrying the distinguishing suffix, and the output
is sorted by descending member count. -/
theorem groupTransactionsByDescription_C7 (txs : List ParsedTransaction) :
    ListAll (fun g =>
      1 < g.transactions.length ∧
      (ListAll (fun t => t.isDuplicate = true) g.transactions ∨
       ListAll (fun t => t.isDuplicate = false) g.transactions) ∧
      (ListAll (fun t => t.isDuplicate = true) g.transactions →
        ∃ n, g.description = n ++ strL " (Duplicates)"))
      (groupTransactionsByDescription txs) ∧
    (groupTransactionsByDescription txs).Pairwise
      (fun a b => b.transactions.length ≤ a.transactions.length) := by
  constructor
  · rw [listAll_iff]
    intro g hg
    obtain ⟨hlen, hfacts⟩ := groupTransactionsByDescription_facts txs g hg
    refine ⟨hlen, ?_, ?_⟩
    · cases hgt : g.transactions with
      | nil => rw [hgt] at hlen; simp at hlen
      | cons t ts =>
        have hft := hfacts t (by rw [hgt]; exact List.mem_cons_self _ _)
        cases hd : t.isDuplicate with
        | true =>
          left
          rw [listAll_iff]
          intro u hu
          exact (hft.1 hd).2 u (by rw [hgt]; exact hu)
        | false =>
          right
          rw [listAll_iff]
          intro u hu
          exact (hft.2 hd).2 u (by rw [hgt]; exact hu)
    · intro hall
      cases hgt : g.transactions with
      | nil => rw [hgt] at hlen; simp at hlen
      | cons t ts =>
        have ht : t ∈ g.transactions := by rw [hgt]; exact List.mem_cons_self _ _
        have hd : t.isDuplicate = true := (listAll_iff _ _).mp hall t ht
        exact ⟨normalizeDescription t.description, ((hfacts t ht).1 hd).1⟩
  · simp only [groupTransactionsByDescription]
    refine List.Pairwise.imp ?_ (pairwise_sortStable groupLe groupLe_total groupLe_trans _)
    intro a b hab
    unfold groupLe at hab
    simpa using hab

/-- Claim C9: each group's display description is the normalized key -
the shared normalized member description, with the duplicate display
suffix for duplicate groups - and never equals a member's raw
description that contains a digit, a character outside the word and
whitespace classes, or an uppercase ASCII letter. -/
theorem groupTransactionsByDescription_C9 (txs : List ParsedTransaction) :
    ListAll (fun g => ListAll (fun t =>
      ((t.isDuplicate = true ∧
          g.description = normalizeDescription t.description ++ strL " (Duplicates)") ∨
        (t.isDuplicate = false ∧
          g.description = normalizeDescription t.description)) ∧
      (((∃ c ∈ t.description, jsIsDigit c = true) ∨
        (∃ c ∈ t.description, isWordChar c = false ∧ isJsSpace c = false) ∨
        (∃ c ∈ t.description, 65 ≤ c.toNat ∧ c.toNat ≤ 90)) →
        ¬ g.description = t.description)) g.transactions)
      (groupTransactionsByDescription txs) := by
  rw [listAll_iff]
  intro g hg
  obtain ⟨_, hfacts⟩ := groupTransactionsByDescription_facts txs g hg
  rw [listAll_iff]
  intro t ht
  have hft := hfacts t ht
  cases hd : t.isDuplicate with
  | true =>
    have hdesc := (hft.1 hd).1
    refine ⟨Or.inl ⟨rfl, hdesc⟩, ?_⟩
    intro _ he
    rw [hdesc] at he
    set n := normalizeDescription t.description with hn
    by_cases hne : n = []
    · rw [hne, List.nil_append] at he
      rw [hn] at hne
      rw [← he] at hne
      exact absurd hne (by decide)
    · have hfix := normalizeDescription_append_dup n
        (by rw [hn]; exact normalizeDescription_mem t.description)
        (by rw [hn]; exact normalizeDescription_chain t.description)
        (by rw [hn]; exact normalizeDescription_head t.description)
        (by rw [hn]; exact normalizeDescription_last t.description) hne
      rw [he] at hfix
      rw [← hn] at hfix
      have hl2 := congrArg List.length hfix
      rw [List.length_append, show (strL " duplicates").length = 11 from by decide] at hl2
      omega
  | false =>
    have hdesc := (hft.2 hd).1
    refine ⟨Or.inr ⟨rfl, hdesc⟩, ?_⟩
    intro hw he
    rw [hdesc] at he
    rcases hw with ⟨c, hc, hcp⟩ | ⟨c, hc, hcp⟩ | ⟨c, hc, hcp⟩
    · have hcanon := normalizeDescription_mem t.description c (by rw [he]; exact hc)
      exact absurd hcp (isCanonChar_not_digit c hcanon)
    · have hcanon := normalizeDescription_mem t.description c (by rw [he]; exact hc)
      rcases isCanonChar_word_or_space c hcanon with h | h
      · rw [hcp.1] at h
        exact Bool.false_ne_true h
      · rw [hcp.2] at h
        exact Bool.false_ne_true h
    · have hcanon := normalizeDescription_mem t.description c (by rw [he]; exact hc)
      exact absurd hcp (isCanonChar_not_upper c hcanon)

end SmartImport

namespace ColumnDetection

/-- The Basil-export check holds exactly when every canonical header
occurs. -/
theorem detectBasilCSV_iff (headers : List JsStr) :
    CsvParser.detectBasilCSV headers = true ↔
    ∀ h ∈ CsvParser.basilHeaders, h ∈ headers := by
  unfold CsvParser.detectBasilCSV
  rw [List.all_eq_true]
  constructor
  · intro h1 h hm
    simpa using h1 h hm
  · intro h1 h hm
    simpa using h1 h hm

/-- Claim C4: on a nonempty row list, detectColumnMappings returns the
fixed canonical mapping - the six columns wired to the canonical names
and the canonical-format flag set - exactly when the first row's header
set contains all six canonical names; with even one missing, the flag
stays unset and the heuristic detection produces the result. -/
theorem detectColumnMappings_basil_C4 (r : ImportedRow) (rest : List ImportedRow) :
    (detectColumnMappings (r :: rest) = basilMapping ↔
      ∀ h ∈ CsvParser.basilHeaders, h ∈ rowKeys r) ∧
    ((detectColumnMappings (r :: rest)).isBasilCSV = some true ↔
      CsvParser.detectBasilCSV (rowKeys r) = true) ∧
    (CsvParser.detectBasilCSV (rowKeys r) = false →
      detectColumnMappings (r :: rest) = heuristicMappings (r :: rest) (rowKeys r) ∧
      (detectColumnMappings (r :: rest)).isBasilCSV = none) ∧
    basilMapping.dateColumn = strL "Date" ∧
    basilMapping.descriptionColumn = strL "Description" ∧
    basilMapping.amountColumn = strL "Amount" ∧
    basilMapping.categoryColumn = strL "Category" ∧
    basilMapping.typeColumn = strL "Type" ∧
    basilMapping.createdAtColumn = strL "Created At" ∧
    basilMapping.isBasilCSV = some true := by
  have hd : detectColumnMappings (r :: rest) =
      if CsvParser.detectBasilCSV (rowKeys r) then basilMapping
      else heuristicMappings (r :: rest) (rowKeys r) := rfl
  have hh : (heuristicMappings (r :: rest) (rowKeys r)).isBasilCSV = none := rfl
  cases hb : CsvParser.detectBasilCSV (rowKeys r) with
  | true =>
    rw [hd, hb, if_pos rfl]
    exact ⟨⟨fun _ => (detectBasilCSV_iff (rowKeys r)).mp hb, fun _ => rfl⟩,
      ⟨fun _ => rfl, fun _ => rfl⟩,
      fun hf => absurd hf (by simp),
      rfl, rfl, rfl, rfl, rfl, rfl, rfl⟩
  | false =>
    rw [hd, hb, if_neg (by simp)]
    refine ⟨⟨?_, ?_⟩, ?_, fun _ => ⟨rfl, hh⟩, rfl, rfl, rfl, rfl, rfl, rfl, rfl⟩
    · intro he
      exfalso
      have h2 := congrArg ColumnMapping.isBasilCSV he
      rw [hh] at h2
      exact Option.noConfusion h2
    · intro hall
      exfalso
      have h3 := (detectBasilCSV_iff (rowKeys r)).mpr hall
      rw [hb] at h3
      exact Bool.false_ne_true h3
    · rw [hh]
      simp

end ColumnDetection

end Basil
